import Mathlib

/-!
# Verification of the lyro probabilistic-program engine

Shallow embedding of the lyro repository (fritzo/lyro): the splittable
random-state abstraction (`src/lyro/random.py`, with the duplicate copy in
`src/lyro/distributions.py`), the composable interpreter chain
(`src/lyro/interpreters.py`, legacy copy in `src/lyro/__init__.py`), and the
Gibbs resampling scheduler (`src/lyro/infer.py`).

Python dicts are modelled as association lists with insertion-order-preserving
upsert; machine hashes of `(distribution, rng)` cache keys are modelled by the
pairs themselves (the digest is treated as injective, per the spec's
collision-resistance assumption); external nondeterminism of distribution
sampling (remote chat completions) is modelled by an oracle stream consumed by
the terminal `Standard` interpreter.
-/

namespace Lyro


/-! ## RandomKey (src/lyro/random.py lines 22-48)

The Python state is a pair `(tail, head)` rooted at `(None, 0)`; `tail` is
either `None` or a full previous state. -/

/-- `RandomKey.state` from `src/lyro/random.py`: a pair whose second component
is `head` (`state[-1]`) and whose first component (`state[0]`) is either
`None` (constructor `base`) or an entire previous state tuple (constructor
`cons`). -/
inductive RandomKey where
  | base (head : Nat)
  | cons (tail : RandomKey) (head : Nat)
deriving DecidableEq, Repr

/-- The canonical root key `RandomKey()` = state `(None, 0)`. -/
def RandomKey.root : RandomKey := .base 0

/-- `head` component (`state[-1]`) of the state tuple. -/
def RandomKey.head : RandomKey → Nat
  | .base h => h
  | .cons _ h => h

/-- Replace the head, keeping the same tail (`state[0]`). -/
def RandomKey.withHead : RandomKey → Nat → RandomKey
  | .base _, h => .base h
  | .cons t _, h => .cons t h

/-- `RandomKey.split` from `src/lyro/random.py` lines 36-48:
`left = self.state, 0` (one tuple deeper) and
`right = self.state[0], self.state[-1] + 1` (same depth, head incremented). -/
def RandomKey.split (k : RandomKey) : RandomKey × RandomKey :=
  (.cons k 0, k.withHead (k.head + 1))

/-- The duplicate `RandomKey.split` in `src/lyro/distributions.py` lines 40-52:
`left = self.state, 0` but `right = self.state[0], self.state[-1]` -- the head
is NOT incremented. -/
def distributionsSplit (k : RandomKey) : RandomKey × RandomKey :=
  (.cons k 0, k.withHead k.head)

/-- Depth of the derivation chain (number of nested tuples). -/
def RandomKey.depth : RandomKey → Nat
  | .base _ => 0
  | .cons t _ => t.depth + 1

/-! ## Interpreter stacking (C9)

`src/lyro/interpreters.py` lines 36-39 (`Interpreter.__add__`: sets
`other.base = self` unconditionally and returns `other`) versus the legacy
`src/lyro/__init__.py` lines 79-84 (raises `ValueError` if `other.base` is
already set).  Only the delegate slot of an interpreter object is modelled. -/

/-- An interpreter object, modelled by its delegate (`base`) slot alone:
`unset` means no instance attribute is set (the legacy default `base = None`);
`set b` means the slot holds the object `b`. -/
inductive PInterp where
  | unset
  | set (tgt : PInterp)
deriving DecidableEq, Repr

/-- Whether the object's `base` instance attribute is set. -/
def PInterp.hasDelegate : PInterp → Bool
  | .unset => false
  | .set _ => true

/-- `Interpreter.__add__` from `src/lyro/interpreters.py` lines 36-39:
`other.base = self; return other`.  Total: no check, never raises. -/
def modernAdd (a _b : PInterp) : PInterp := .set a

/-- `Interpreter.__add__` from `src/lyro/__init__.py` lines 79-84:
`if other.base is not None: raise ValueError; other.base = self; return other`. -/
def legacyAdd (a b : PInterp) : Except Unit PInterp :=
  match b with
  | .unset => .ok (.set a)
  | .set _ => .error ()

/-! ## Distributions

Distributions are opaque plug-ins (spec section 1): the core only uses their
structural identity (for cache keys and the `isinstance(prior, ChatGPT)`
assertion in `Gibbs._do_work`) and the single capability "produce a value
given a random state", whose external nondeterminism is modelled by the
oracle stream consumed by `Standard`. -/

/-- The Python class of a distribution object, as far as the core inspects it
(`isinstance` checks in `src/lyro/infer.py` lines 100 and 173). -/
inductive DistKind where
  | chatGPT
  | fusedGPT
  | other
deriving DecidableEq, Repr

/-- An opaque distribution: its class plus a structural identity standing for
its constructor parameters (used only as part of memoization keys). -/
structure Dist where
  kind : DistKind
  id : Nat
deriving DecidableEq, Repr

/-- `FusedGPT(prior.messages, likelihoods)` built in `Gibbs._do_work`
(`src/lyro/infer.py` line 102): a fresh distribution of class `FusedGPT`. -/
def fuseDist (prior : Dist) : Dist := ⟨.fusedGPT, prior.id⟩

/-- Oracle stream of values returned by actual distribution invocations
(remote chat completions): the n-th actual call returns `orc n`. -/
def Oracle := Nat → String

/-! ## Association lists (Python dict model)

Python dicts keep insertion order; assigning to an existing key keeps its
position, assigning a new key appends. -/

/-- Dict lookup. -/
def alookup {β : Type} : List (String × β) → String → Option β
  | [], _ => none
  | (k, v) :: t, k' => if k = k' then some v else alookup t k'

/-- Dict assignment `d[k] = v`: replace in place if present, else append. -/
def upsert {β : Type} : List (String × β) → String → β → List (String × β)
  | [], k, v => [(k, v)]
  | (a, b) :: t, k, v => if a = k then (k, v) :: t else (a, b) :: upsert t k v

/-- `d.update(e)` on dicts: upsert every entry of `e` in order. -/
def dictUpdate {β : Type} (l e : List (String × β)) : List (String × β) :=
  e.foldl (fun acc p => upsert acc p.1 p.2) l

/-- Dict keys, in order. -/
def keysOf {β : Type} (l : List (String × β)) : List String := l.map Prod.fst

/-! ## Interpreter chain (src/lyro/interpreters.py)

A chain is a singly-linked list of interpreter nodes ending in `standard`.
`sample` threads the oracle cursor; the option result is `none` when the
chain raises (missing rng in `Standard`/`Memoize`). -/

/-- A trace node `(name, distribution, rng, value)`
(`src/lyro/interpreters.py` lines 164-168). -/
structure TraceNode where
  name : String
  dist : Dist
  rng : Option RandomKey
  value : String
deriving DecidableEq, Repr

/-- An interpreter chain with the state of every node
(`Standard`, `ThreadRandomKey`, `Memoize`, `Trace`, `Condition` from
`src/lyro/interpreters.py`). -/
inductive Interp where
  | standard
  | thread (rng : RandomKey) (force : Bool) (base : Interp)
  | memoize (cache : List ((Dist × RandomKey) × String)) (base : Interp)
  | trace (nodes : List (String × TraceNode)) (base : Interp)
  | condition (data : List (String × String)) (base : Interp)
deriving DecidableEq, Repr

/-- Memoize-cache lookup, keyed by the (distribution, rng) pair (the integer
`hash((distribution, rng))` of `src/lyro/interpreters.py` line 104, with the
digest treated as injective). -/
def clookup : List ((Dist × RandomKey) × String) → Dist × RandomKey → Option String
  | [], _ => none
  | (k, v) :: t, k' => if k = k' then some v else clookup t k'

/-- `Interpreter.sample` of each chain node, returning the value, the updated
chain, and the advanced oracle cursor; `none` models a raised `ValueError`.

* `standard` (lines 54-63): requires an rng, then calls the distribution --
  modelled as consuming the next oracle value.
* `thread` (lines 72-88): if no rng is given (or `force`), splits the held
  key, passes the deeper half down, keeps the incremented half.
* `memoize` (lines 91-108): requires an rng; answers from the cache or
  delegates and stores the result.
* `trace` (lines 171-187): delegates, then records the node.
* `condition` (lines 190-205): short-circuits names present in `data`,
  otherwise delegates. -/
def Interp.sample : Interp → String → Dist → Option RandomKey → Oracle → Nat →
    Option (String × Interp × Nat)
  | .standard, _, _, rng, orc, cur =>
    match rng with
    | none => none
    | some _ => some (orc cur, .standard, cur + 1)
  | .thread k force b, name, d, rng, orc, cur =>
    let passed : RandomKey × RandomKey :=
      match rng with
      | none => k.split
      | some r => if force then k.split else (r, k)
    match b.sample name d (some passed.1) orc cur with
    | none => none
    | some (v, b', cur') => some (v, .thread passed.2 force b', cur')
  | .memoize c b, name, d, rng, orc, cur =>
    match rng with
    | none => none
    | some r =>
      match clookup c (d, r) with
      | some v => some (v, .memoize c b, cur)
      | none =>
        match b.sample name d (some r) orc cur with
        | none => none
        | some (v, b', cur') => some (v, .memoize (((d, r), v) :: c) b', cur')
  | .trace ns b, name, d, rng, orc, cur =>
    match b.sample name d rng orc cur with
    | none => none
    | some (v, b', cur') =>
      some (v, .trace (upsert ns name ⟨name, d, rng, v⟩) b', cur')
  | .condition data b, name, d, rng, orc, cur =>
    match alookup data name with
    | some v => some (v, .condition data b, cur)
    | none =>
      match b.sample name d rng orc cur with
      | none => none
      | some (v, b', cur') => some (v, .condition data b', cur')

/-- A probabilistic program with static structure: a fixed sequence of
`lyro.sample(name, distribution)` draws (spec section 6, "Program"). -/
def Program := List (String × Dist)

/-- Run a program under a chain: each draw enters at the chain head with no
explicit rng (`src/lyro/runtime.py` lines 6-13). -/
def runProg : Interp → List (String × Dist) → Oracle → Nat →
    Option (List (String × String) × Interp × Nat)
  | i, [], _, cur => some ([], i, cur)
  | i, (n, d) :: rest, orc, cur =>
    match i.sample n d none orc cur with
    | none => none
    | some (v, i', cur') =>
      match runProg i' rest orc cur' with
      | none => none
      | some (vs, i'', cur'') => some ((n, v) :: vs, i'', cur'')

/-! ## Scheduler bookkeeping (src/lyro/infer.py)

`Gibbs._find_work` / `_start_work` operate on the dependency graph
(`markov_blanket`), tie-break ranks, per-site completed counts, and the
in-flight task set. -/

/-- The scheduling state read by `_find_work`: `blanket` is
`self.markov_blanket`, `rank` is `self.rank`, `counts` is `self.counts`
(a `Counter`: reads of absent keys give 0), `tasks` is the key set of
`self.tasks`. -/
structure Sched where
  blanket : List (String × List String)
  rank : List (String × Nat)
  counts : List (String × Nat)
  tasks : List String
deriving DecidableEq, Repr

/-- `self.counts[name]` (Counter read, default 0). -/
def countOf (counts : List (String × Nat)) (name : String) : Nat :=
  (alookup counts name).getD 0

/-- `min(self.counts.values()) if self.counts else 0`
(`src/lyro/infer.py` line 68). -/
def slowestOf (counts : List (String × Nat)) : Nat :=
  ((counts.map Prod.snd).min?).getD 0

/-- The feasible-site filter of `_find_work` (`src/lyro/infer.py` lines
69-75): not already running, no dependency running, not ahead of the
slowest site. -/
def Sched.feasible (s : Sched) : List String :=
  (s.blanket.filter fun p =>
    (!s.tasks.contains p.1) &&
    (!p.2.any fun dep => s.tasks.contains dep) &&
    decide (countOf s.counts p.1 ≤ slowestOf s.counts)).map Prod.fst

/-- Strict lexicographic order on `(count, rank)` pairs: Python's `min`
returns the first element attaining the minimum, so the fold below replaces
the accumulator only on strict decrease. -/
def lexLt (a b : Nat × Nat) : Bool := a.1 < b.1 || (a.1 = b.1 && a.2 < b.2)

/-- `min(feasible, key=lambda name: (counts[name], rank[name]))`
(`src/lyro/infer.py` line 80). -/
def argminLex (key : String → Nat × Nat) : List String → Option String
  | [] => none
  | n :: t => some (t.foldl (fun b x => if lexLt (key x) (key b) then x else b) n)

/-- `Gibbs._find_work` (`src/lyro/infer.py` lines 66-82): pick the best
feasible site and increment its completed count, or return `none`. -/
def Sched.findWork (s : Sched) : Option (String × Sched) :=
  match argminLex
      (fun name => (countOf s.counts name, (alookup s.rank name).getD 0))
      s.feasible with
  | none => none
  | some best =>
    some (best, { s with counts := upsert s.counts best (countOf s.counts best + 1) })

/-- The `while self.num_pending` loop of `Gibbs._start_work`
(`src/lyro/infer.py` lines 84-92): repeatedly take feasible work, decrement
the pending budget and add the site to the in-flight task map, until the
budget is exhausted or no site is feasible.  Returns the remaining budget and
the final scheduling state. -/
def startWorkLoop : Nat → Sched → Nat × Sched
  | 0, s => (0, s)
  | p + 1, s =>
    match s.findWork with
    | none => (p + 1, s)
    | some (name, s') => startWorkLoop p { s' with tasks := s'.tasks ++ [name] }

/-- One asynchronous scheduling event visible to the in-flight set: either
`_start_work` launches the site chosen by `_find_work`, or an in-flight unit
of work finishes (`self.tasks.pop(name)` in `_do_work`'s `finally`). -/
inductive SchedStep : Sched → Sched → Prop
  | launch (s : Sched) (name : String) (s' : Sched)
      (h : s.findWork = some (name, s')) :
      SchedStep s { s' with tasks := s'.tasks ++ [name] }
  | complete (s : Sched) (name : String) (h : name ∈ s.tasks) :
      SchedStep s { s with tasks := s.tasks.erase name }

/-- Reachability by scheduling events. -/
def SchedReach : Sched → Sched → Prop := Relation.ReflTransGen SchedStep

/-- No two distinct in-flight sites lie in each other's dependency sets. -/
def NoConflict (s : Sched) : Prop :=
  ∀ a ∈ s.tasks, ∀ b ∈ s.tasks, a ≠ b →
    ∀ da, (a, da) ∈ s.blanket → ∀ db, (b, db) ∈ s.blanket →
      ¬ (a ∈ db ∧ b ∈ da)

/-- The default dependency graph installed by `Gibbs._init`
(`src/lyro/infer.py` line 60): every latent site depends on the full list of
latent sites, itself included. -/
def completeBlanket (latents : List String) : List (String × List String) :=
  latents.map fun n => (n, latents)

/-! ## The Gibbs engine (src/lyro/infer.py)

Because `Gibbs.__init__` never stores its `markov_blanket` argument, `_init`
always installs the complete dependency graph (`tasks_le_one_reach`), so at
most one `_do_work` task exists at a time and the asynchronous execution of
`sample` is equivalent to the sequential loop `gibbsLoop` below: each
iteration is one `_find_work` pick followed by one complete `_do_work` body
(whose trailing `_start_work` call is the next loop iteration).  The
in-flight task map momentarily holds the running site inside an iteration
and is empty between iterations; `DoWorkRes.tasksAfter` records its contents
when `_do_work` finishes or raises. -/

/-- Errors raised inside the engine (assertion failures, KeyErrors,
ValueErrors, and an injected distribution failure). -/
inductive GErr where
  | missingRng
  | dataNotInTrace
  | priorNotChat
  | neighborMissing
  | neighborNotChat
  | traceKeyError
  | budgetStuck
  | dataChanged
  | drawFailed
deriving DecidableEq, Repr

/-- The module-level default interpreter chain
(`src/lyro/interpreters.py` line 226):
`BASE + Memoize() + ThreadRandomKey()`, i.e. ThreadRandomKey at the head,
delegating to Memoize, delegating to Standard. -/
def defaultChain : Interp := .thread RandomKey.root false (.memoize [] .standard)

/-- `FusedGPT.VARIABLE` (`src/lyro/openai.py` line 114). -/
def FusedVariable : String := "MYSTERY_UTTERANCE"

/-- `{k: site.value for k, site in nodes.items()}`. -/
def traceData (tr : List (String × TraceNode)) : List (String × String) :=
  tr.map fun p => (p.1, p.2.value)

/-- `with Condition(data), Trace() as t:` -- Condition entered first, Trace
second, so Trace heads the chain and delegates to Condition, which delegates
to the prevailing chain (`_init` line 44, `get_likelihoods` line 164).
Returns the recorded trace, the restored prevailing chain, and the cursor. -/
def runTraceCondition (data : List (String × String)) (chain : Interp)
    (prog : List (String × Dist)) (orc : Oracle) (cur : Nat) :
    Option (List (String × TraceNode) × Interp × Nat) :=
  match runProg (.trace [] (.condition data chain)) prog orc cur with
  | some (_, .trace ns (.condition _ b), cur') => some (ns, b, cur')
  | _ => none

/-- `with Trace() as t, Condition(data):` -- Trace entered FIRST, Condition
second (`_do_work` line 113), so Condition heads the chain and Trace sits
below it: sites present in `data` are answered by Condition and never reach
Trace. -/
def runConditionTrace (data : List (String × String)) (chain : Interp)
    (prog : List (String × Dist)) (orc : Oracle) (cur : Nat) :
    Option (List (String × TraceNode) × Interp × Nat) :=
  match runProg (.condition data (.trace [] chain)) prog orc cur with
  | some (_, .condition _ (.trace ns b), cur') => some (ns, b, cur')
  | _ => none

/-- `with Trace() as trace: value = await lyro.sample(name, posterior)`
(`_do_work` lines 107-108): a single draw under a fresh Trace over the
prevailing chain. -/
def drawOne (name : String) (dist : Dist) (chain : Interp) (orc : Oracle)
    (cur : Nat) : Option (String × Interp × Nat) :=
  match Interp.sample (.trace [] chain) name dist none orc cur with
  | some (v, .trace _ b, cur') => some (v, b, cur')
  | _ => none

/-- The mutable state of one `Gibbs` instance plus the process-level pieces
it interacts with: the shared trace, the scheduling state, the module-level
interpreter chain and the oracle cursor.  `lastDraw` is a ghost field
recording the local variable `value` of the last completed `_do_work`. -/
structure GState where
  model : List (String × Dist)
  data : List (String × String)
  sched : Sched
  trace : List (String × TraceNode)
  chain : Interp
  cur : Nat
  lastDraw : Option String
deriving DecidableEq, Repr

/-- `self.markov_blanket[name]` as read by `get_likelihoods` line 169. -/
def depsOf (s : Sched) (name : String) : List String :=
  (alookup s.blanket name).getD []

/-- `self.rank = {name: i for i, name in enumerate(reversed(nodes))}`
(`_init` line 64). -/
def rankOf (latentNames : List String) : List (String × Nat) :=
  (latentNames.reverse.enum).map fun p => (p.2, p.1)

/-- `Gibbs.__init__` (`src/lyro/infer.py` lines 27-38) never assigns
`self.markov_blanket`: whatever argument is passed, the instance attribute
stays unset and `hasattr(self, "markov_blanket")` in `_init` is false. -/
def gibbsCtorBlanket (_markovBlanketArg : Option (List (String × List String))) :
    Option (List (String × List String)) := none

/-- `Gibbs._init` (`src/lyro/infer.py` lines 40-64): sample from the prior
under `Condition(data)` + `Trace`, assert every observed key was visited,
restrict to latent sites, install the dependency graph (the stored
`markov_blanket` if the attribute is set, else the complete graph) and the
reverse-discovery-order ranks. -/
def gibbsInit (model : List (String × Dist)) (data : List (String × String))
    (storedBlanket : Option (List (String × List String))) (chain : Interp)
    (orc : Oracle) (cur : Nat) : Except GErr GState :=
  match runTraceCondition data chain model orc cur with
  | none => .error .missingRng
  | some (ns, chain', cur') =>
    if data.all fun p => (alookup ns p.1).isSome then
      let latents := ns.filter fun p => (alookup data p.1).isNone
      let latentNames := keysOf latents
      let blanket :=
        match storedBlanket with
        | none => completeBlanket latentNames
        | some b => b
      .ok ⟨model, data, ⟨blanket, rankOf latentNames, [], []⟩, ns, chain', cur', none⟩
    else .error .dataNotInTrace

/-- Result of one `_do_work` body: the outcome, whether the `except
Exception` handler logged an error, and the sites left in `self.tasks` by
this unit of work (it started with `[name]`; the `finally` pop runs only for
exits from the `try` block). -/
structure DoWorkRes where
  res : Except GErr GState
  logged : Bool
  tasksAfter : List String
deriving Repr

/-- The neighbor loop of `get_likelihoods` (`src/lyro/infer.py` lines
167-175): for every dependency other than the site itself, look it up in the
re-executed trace (KeyError if absent) and assert its distribution is a
`ChatGPT`. -/
def likelihoodsCheck (deps : List String) (name : String)
    (ns : List (String × TraceNode)) : Except GErr Unit :=
  match deps with
  | [] => .ok ()
  | d :: rest =>
    if d = name then likelihoodsCheck rest name ns
    else
      match alookup ns d with
      | none => .error .neighborMissing
      | some node =>
        if node.dist.kind = .chatGPT then likelihoodsCheck rest name ns
        else .error .neighborNotChat

/-- One `_do_work(name)` body (`src/lyro/infer.py` lines 94-127), starting
with `self.tasks = [name]`.  Before the `try` block: the trace lookup, the
`isinstance(prior, ChatGPT)` assertion and `get_likelihoods` (a re-execution
under `Condition` + `Trace` with a placeholder value, then the neighbor
checks).  Inside the `try`: the local posterior draw (`drawFails` injects a
distribution failure there), then the re-execution under the
`Trace() as trace, Condition(data)` pair and the merge
`self.trace.nodes.update(trace.nodes)`. -/
def doWork (g : GState) (name : String) (drawFails : Bool) (orc : Oracle) :
    DoWorkRes :=
  match alookup g.trace name with
  | none => ⟨.error .traceKeyError, false, [name]⟩
  | some node =>
    if node.dist.kind = .chatGPT then
      let dataL := upsert (traceData g.trace) name FusedVariable
      match runTraceCondition dataL g.chain g.model orc g.cur with
      | none => ⟨.error .missingRng, false, [name]⟩
      | some (ns, chain1, cur1) =>
        match likelihoodsCheck (depsOf g.sched name) name ns with
        | .error e => ⟨.error e, false, [name]⟩
        | .ok _ =>
          if drawFails then ⟨.error .drawFailed, true, []⟩
          else
            match drawOne name (fuseDist node.dist) chain1 orc cur1 with
            | none => ⟨.error .missingRng, true, []⟩
            | some (v, chain2, cur2) =>
              let data2 := upsert (traceData g.trace) name v
              match runConditionTrace data2 chain2 g.model orc cur2 with
              | none => ⟨.error .missingRng, true, []⟩
              | some (sub, chain3, cur3) =>
                ⟨.ok { g with
                    trace := dictUpdate g.trace sub,
                    chain := chain3,
                    cur := cur3,
                    lastDraw := some v }, false, []⟩
    else ⟨.error .priorNotChat, false, [name]⟩

/-- The sequential unfolding of `sample`'s scheduling
(`src/lyro/infer.py` lines 84-92 and 144-146): the fuel is `num_pending`.
Each iteration is `_find_work` (which increments the chosen site's count)
followed by the complete `_do_work` body.  If no site is feasible while
budget remains, no task can ever be started again and the trailing
`assert self.num_pending == 0` fails (`budgetStuck`). -/
def gibbsLoop (orc : Oracle) : Nat → GState → Except GErr GState
  | 0, g => .ok g
  | fuel + 1, g =>
    match g.sched.findWork with
    | none => .error .budgetStuck
    | some (name, s') =>
      match (doWork { g with sched := s' } name false orc).res with
      | .error e => .error e
      | .ok g' => gibbsLoop orc fuel g'

/-- `Gibbs(model, data, markov_blanket).sample(num_steps)` end to end
(`src/lyro/infer.py` lines 129-158): construct the instance (discarding the
`markov_blanket` argument), run `_init`, run the scheduling loop, assert the
observed values are unchanged in the final trace, and return the final state
together with the latent-site mapping. -/
def gibbsSampleRun (model : List (String × Dist)) (data : List (String × String))
    (markovBlanketArg : Option (List (String × List String))) (numSteps : Nat)
    (orc : Oracle) : Except GErr (GState × List (String × String)) :=
  match gibbsInit model data (gibbsCtorBlanket markovBlanketArg) defaultChain orc 0 with
  | .error e => .error e
  | .ok g0 =>
    match gibbsLoop orc numSteps g0 with
    | .error e => .error e
    | .ok g =>
      if g.data.all fun p =>
          match alookup g.trace p.1 with
          | some node => node.value = p.2
          | none => false then
        .ok (g, (g.trace.filter fun p => (alookup g.data p.1).isNone).map
          fun p => (p.1, p.2.value))
      else .error .dataChanged

/-! ## Cancellation (src/lyro/infer.py lines 129-146)

Cooperative cancellation can be delivered at an await point of `sample`:
inside `await self._init()` (covered by the `try`), lexically inside the
`self._start_work()` call (also covered by the `try`; `_start_work` itself
contains no awaits), or at the `await asyncio.gather(...)` wait loop, which
is OUTSIDE the `try`/`except asyncio.CancelledError` block. -/

/-- Await window at which the caller's cancellation lands. -/
inductive CancelPhase where
  | duringInit
  | duringStartWork
  | duringWait
deriving DecidableEq, Repr

/-- Observable state when the cancelled `sample` frame unwinds. -/
structure CancelOutcome where
  propagated : Bool
  tasks : List String
  numPending : Nat
  tasksCancelled : Bool
deriving DecidableEq, Repr

/-- `Gibbs.sample` under a caller cancellation delivered at the given phase.
The `except asyncio.CancelledError` handler (lines 138-143) cancels every
task in `self.tasks`, clears the map, resets `self.num_pending` to 0 and
re-raises -- but it guards only `_init` and `_start_work` (lines 136-137).
A cancellation landing at the `await asyncio.gather` (line 145) makes gather
cancel the awaited tasks and propagates out of `sample` directly: no handler
resets `num_pending` or clears `self.tasks`.  Returns `none` when `sample`
raised during `_init` before any wait-phase cancellation could exist. -/
def sampleCancelled (model : List (String × Dist)) (data : List (String × String))
    (markovBlanketArg : Option (List (String × List String))) (numSteps : Nat)
    (orc : Oracle) : CancelPhase → Option CancelOutcome
  | .duringInit => some ⟨true, [], 0, true⟩
  | .duringStartWork => some ⟨true, [], 0, true⟩
  | .duringWait =>
    match gibbsInit model data (gibbsCtorBlanket markovBlanketArg) defaultChain orc 0 with
    | .error _ => none
    | .ok g0 =>
      let ps := startWorkLoop numSteps g0.sched
      some ⟨true, ps.2.tasks, ps.1, true⟩

/-! ## Concrete instances used by witnesses and counterexamples -/

/-- A `ChatGPT` distribution object (spec's two-site scenario, site `a`). -/
def chatA : Dist := ⟨.chatGPT, 0⟩

/-- A `ChatGPT` distribution object (spec's two-site scenario, site `b`). -/
def chatB : Dist := ⟨.chatGPT, 1⟩

/-- A distribution that is not a `ChatGPT` (e.g. a `UniformHash` test
distribution). -/
def otherDist : Dist := ⟨.other, 2⟩

/-- A concrete oracle stream of pairwise distinct values. -/
def orcW : Oracle := fun n =>
  match n with
  | 0 => "w0"
  | 1 => "w1"
  | 2 => "w2"
  | 3 => "w3"
  | 4 => "w4"
  | 5 => "w5"
  | _ => "wmore"

/-- The spec section 8 concrete scenario: a two-site program `a` then `b`. -/
def progAB : List (String × Dist) := [("a", chatA), ("b", chatB)]

/-- A two-site dependency graph with mutually dependent sites, used to
exercise the scheduling invariant. -/
def schedAB : Sched := ⟨[("a", ["a", "b"]), ("b", ["a", "b"])], rankOf ["a", "b"], [], []⟩

/-- A second concrete oracle, everywhere different from `orcW`, standing for
the fresh external nondeterminism of a re-execution. -/
def orcZ : Oracle := fun _ => "zzz"

/-! ## The determinism stack (C7)

`ThreadRandomKey(k)` over a shared `Memoize` over `Standard` -- the shape of
the module default `BASE + Memoize() + ThreadRandomKey()`. -/

/-- A fresh `ThreadRandomKey` holding `k`, stacked over a `Memoize` with
cache `c`, over `Standard`. -/
def stackTM (k : RandomKey) (c : List ((Dist × RandomKey) × String)) : Interp :=
  .thread k false (.memoize c .standard)

/-- The sequence of memoization keys `(distribution, rng)` a program's draws
hit under `stackTM k _`: the i-th draw receives the deeper half of the i-th
split of the threaded key. -/
def keySeq : RandomKey → List (String × Dist) → List (Dist × RandomKey)
  | _, [] => []
  | k, (_, d) :: rest => (d, (k.split).1) :: keySeq (k.split).2 rest

/-- The threaded key held after running a program: one split per draw. -/
def endKey : RandomKey → List (String × Dist) → RandomKey
  | k, [] => k
  | k, _ :: rest => endKey (k.split).2 rest

/-- The memoize cache buried in a `stackTM`-shaped chain. -/
def memCacheOf : Interp → List ((Dist × RandomKey) × String)
  | .thread _ _ (.memoize c _) => c
  | _ => []

/-- The values resolved by the first memoize-witness run of `progAB`. -/
def memRun1Vals : List (String × String) := [("a", "w0"), ("b", "w1")]

/-- The chain state after the first memoize-witness run of `progAB`. -/
def memRun1Chain : Interp :=
  .thread (.base 2) false
    (.memoize [((chatB, .cons (.base 1) 0), "w1"),
               ((chatA, .cons (.base 0) 0), "w0")] .standard)

/-- The values resolved by the second (cached) memoize-witness run. -/
def memRun2Vals : List (String × String) := [("a", "w0"), ("b", "w1")]

/-- The chain state after the second (cached) memoize-witness run. -/
def memRun2Chain : Interp :=
  .thread (.base 2) false
    (.memoize [((chatB, .cons (.base 1) 0), "w1"),
               ((chatA, .cons (.base 0) 0), "w0")] .standard)

/-! ### The sequential-loop invariant -/

/-- The latent site names of a trace: sites absent from the observed data
(`_init` lines 51-55). -/
def latentsOf (data : List (String × String)) (tr : List (String × TraceNode)) :
    List String :=
  keysOf (tr.filter fun p => (alookup data p.1).isNone)

/-- Facts preserved by every iteration of the sequential Gibbs loop. -/
structure LoopInv (model : List (String × Dist)) (data : List (String × String))
    (g : GState) : Prop where
  modelEq : g.model = model
  dataEq : g.data = data
  covered : ∀ p ∈ model, p.1 ∈ keysOf g.trace
  distProv : ∀ nm node, alookup g.trace nm = some node → (nm, node.dist) ∈ model
  obsVal : ∀ nm v, alookup data nm = some v →
    ∃ node, alookup g.trace nm = some node ∧ node.value = v
  blanketEq : g.sched.blanket = completeBlanket (latentsOf data g.trace)
  tasksEmpty : g.sched.tasks = []
  countsSub : ∀ nm ∈ keysOf g.sched.counts, nm ∈ latentsOf data g.trace
  countsNodup : (keysOf g.sched.counts).Nodup
  chainTM : ∃ k c, g.chain = stackTM k c

/-! # Lemmas and claim theorems -/

theorem RandomKey.depth_withHead (k : RandomKey) (h : Nat) :
    (k.withHead h).depth = k.depth := by
  cases k <;> simp [RandomKey.withHead, RandomKey.depth]

theorem RandomKey.head_withHead (k : RandomKey) (h : Nat) :
    (k.withHead h).head = h := by
  cases k <;> simp [RandomKey.withHead, RandomKey.head]

theorem RandomKey.depth_split_fst (k : RandomKey) :
    (k.split).1.depth = k.depth + 1 := by
  simp [RandomKey.split, RandomKey.depth]

theorem RandomKey.depth_split_snd (k : RandomKey) :
    (k.split).2.depth = k.depth := by
  simp [RandomKey.split, RandomKey.depth_withHead]

theorem RandomKey.split_fst_ne (k : RandomKey) : (k.split).1 ≠ k := by
  intro h
  have := congrArg RandomKey.depth h
  rw [RandomKey.depth_split_fst] at this
  omega

theorem RandomKey.split_snd_ne (k : RandomKey) : (k.split).2 ≠ k := by
  intro he
  have := congrArg RandomKey.head he
  rw [RandomKey.split, RandomKey.head_withHead] at this
  omega

theorem RandomKey.split_fst_ne_snd (k : RandomKey) : (k.split).1 ≠ (k.split).2 := by
  intro h
  have := congrArg RandomKey.depth h
  rw [RandomKey.depth_split_fst, RandomKey.depth_split_snd] at this
  omega

theorem RandomKey.withHead_head (k : RandomKey) : k.withHead k.head = k := by
  cases k <;> simp [RandomKey.withHead, RandomKey.head]

theorem alookup_isSome_iff_mem {β : Type} (l : List (String × β)) (k : String) :
    (alookup l k).isSome = true ↔ k ∈ keysOf l := by
  induction l with
  | nil => simp [alookup, keysOf]
  | cons p t ih =>
    obtain ⟨a, b⟩ := p
    by_cases h : a = k <;> simp [alookup, keysOf, h, ih]
    exact fun h' => (h h'.symm).elim

theorem keysOf_upsert {β : Type} (l : List (String × β)) (k : String) (v : β) :
    keysOf (upsert l k v) = if k ∈ keysOf l then keysOf l else keysOf l ++ [k] := by
  induction l with
  | nil => simp [upsert, keysOf]
  | cons p t ih =>
    obtain ⟨a, b⟩ := p
    by_cases h : a = k
    · simp [upsert, keysOf, h]
    · have hka : ¬ (k = a) := fun hk => h hk.symm
      by_cases hm : k ∈ keysOf t
      · simp only [upsert, if_neg h, keysOf, List.map_cons]
        simp only [keysOf] at ih hm
        rw [ih, if_pos hm, if_pos (by simp [hm])]
      · simp only [upsert, if_neg h, keysOf, List.map_cons]
        simp only [keysOf] at ih hm
        rw [ih, if_neg hm, if_neg (by simp [hm, hka])]
        simp

theorem alookup_upsert_self {β : Type} (l : List (String × β)) (k : String) (v : β) :
    alookup (upsert l k v) k = some v := by
  induction l with
  | nil => simp [upsert, alookup]
  | cons p t ih =>
    obtain ⟨a, b⟩ := p
    by_cases h : a = k <;> simp [upsert, alookup, h, ih]

theorem alookup_upsert_ne {β : Type} (l : List (String × β)) (k k' : String)
    (v : β) (h : k ≠ k') : alookup (upsert l k v) k' = alookup l k' := by
  induction l with
  | nil => simp [upsert, alookup, h]
  | cons p t ih =>
    obtain ⟨a, b⟩ := p
    by_cases ha : a = k
    · have hne : ¬ (a = k') := fun hk => h (ha ▸ hk)
      simp [upsert, alookup, ha, hne, h]
    · by_cases ha' : a = k'
      · have hkk : ¬ (k' = k) := fun hk => h hk.symm
        simp [upsert, alookup, ha, ha', hkk]
      · simp [upsert, alookup, ha, ha', ih]

theorem foldl_pick_mem (key : String → Nat × Nat) (t : List String) (a : String) :
    t.foldl (fun b x => if lexLt (key x) (key b) then x else b) a ∈ a :: t := by
  induction t generalizing a with
  | nil => simp
  | cons y yt ih =>
    simp only [List.foldl_cons]
    cases hy : lexLt (key y) (key a)
    · simp only [Bool.false_eq_true, if_false]
      rcases List.mem_cons.mp (ih a) with h | h
      · simp [h]
      · simp [h]
    · simp only [if_true]
      rcases List.mem_cons.mp (ih y) with h | h
      · simp [h]
      · simp [h]

theorem mem_of_argminLex (key : String → Nat × Nat) (l : List String)
    (n : String) (h : argminLex key l = some n) : n ∈ l := by
  match l with
  | [] => simp [argminLex] at h
  | x :: t =>
    simp only [argminLex, Option.some_inj] at h
    subst h
    exact foldl_pick_mem key t x

theorem findWork_spec (s : Sched) (name : String) (s' : Sched)
    (h : s.findWork = some (name, s')) :
    name ∈ s.feasible ∧ s'.blanket = s.blanket ∧ s'.rank = s.rank ∧
      s'.tasks = s.tasks := by
  unfold Sched.findWork at h
  cases ha : argminLex
      (fun name => (countOf s.counts name, (alookup s.rank name).getD 0))
      s.feasible with
  | none => rw [ha] at h; exact absurd h (by simp)
  | some best =>
    rw [ha] at h
    simp only [Option.some_inj, Prod.mk.injEq] at h
    obtain ⟨h1, h2⟩ := h
    subst h1
    constructor
    · exact mem_of_argminLex _ _ _ ha
    · rw [← h2]
      exact ⟨rfl, rfl, rfl⟩

theorem feasible_props (s : Sched) (name : String) (h : name ∈ s.feasible) :
    ∃ deps, (name, deps) ∈ s.blanket ∧ name ∉ s.tasks ∧ ∀ d ∈ deps, d ∉ s.tasks := by
  unfold Sched.feasible at h
  rcases List.mem_map.mp h with ⟨p, hp, hfst⟩
  rcases List.mem_filter.mp hp with ⟨hmem, hpred⟩
  simp only [Bool.and_eq_true, Bool.not_eq_true'] at hpred
  refine ⟨p.2, ?_, ?_, ?_⟩
  · rw [← hfst]
    exact (by cases p; exact hmem)
  · intro hin
    have hc : s.tasks.contains p.1 = true := by
      rw [hfst]; simpa using hin
    rw [hpred.1.1] at hc
    exact Bool.false_ne_true hc
  · intro d hd hdin
    have hany : (p.2.any fun dep => s.tasks.contains dep) = true :=
      List.any_eq_true.mpr ⟨d, hd, by simpa using hdin⟩
    rw [hpred.1.2] at hany
    exact Bool.false_ne_true hany

/-- Dicts have unique keys: two entries with the same key agree. -/
theorem nodup_keys_functional {β : Type} (l : List (String × β))
    (h : (keysOf l).Nodup) {a : String} {v w : β}
    (hv : (a, v) ∈ l) (hw : (a, w) ∈ l) : v = w := by
  induction l with
  | nil => simp at hv
  | cons p t ih =>
    simp only [keysOf, List.map_cons, List.nodup_cons] at h
    rcases List.mem_cons.mp hv with h1 | h1 <;> rcases List.mem_cons.mp hw with h2 | h2
    · have := h1.trans h2.symm
      exact (Prod.mk.injEq _ _ _ _ ▸ this).2
    · exfalso
      apply h.1
      have : a = p.1 := by rw [← h1]
      exact List.mem_map.mpr ⟨(a, w), h2, this.symm ▸ rfl⟩
    · exfalso
      apply h.1
      have : a = p.1 := by rw [← h2]
      exact List.mem_map.mpr ⟨(a, v), h1, this.symm ▸ rfl⟩
    · exact ih h.2 h1 h2

theorem schedStep_blanket_eq {s s' : Sched} (h : SchedStep s s') :
    s'.blanket = s.blanket := by
  cases h with
  | launch name t hfw => exact (findWork_spec s name t hfw).2.1
  | complete => rfl

theorem schedReach_blanket_eq {s s' : Sched} (h : SchedReach s s') :
    s'.blanket = s.blanket := by
  induction h with
  | refl => rfl
  | tail _ hstep ih => rw [schedStep_blanket_eq hstep, ih]

theorem noConflict_step {s s' : Sched} (hnd : (keysOf s.blanket).Nodup)
    (hinv : NoConflict s) (hstep : SchedStep s s') : NoConflict s' := by
  cases hstep with
  | launch name t hfw =>
    obtain ⟨hfeas, hbl, _, htasks⟩ := findWork_spec s name t hfw
    obtain ⟨deps, hdeps, hnotin, hnodeps⟩ := feasible_props s name hfeas
    intro a ha b hb hne da hda db hdb
    simp only [htasks, List.mem_append, List.mem_singleton] at ha hb
    simp only [hbl] at hda hdb
    rintro ⟨hadb, hbda⟩
    rcases ha with ha | ha <;> rcases hb with hb | hb
    · exact hinv a ha b hb hne da hda db hdb ⟨hadb, hbda⟩
    · -- b = name launched now; a ∈ db = deps(name) contradicts the guard.
      subst hb
      have : db = deps := nodup_keys_functional s.blanket hnd hdb hdeps
      exact hnodeps a (this ▸ hadb) ha
    · subst ha
      have : da = deps := nodup_keys_functional s.blanket hnd hda hdeps
      exact hnodeps b (this ▸ hbda) hb
    · exact hne (ha.trans hb.symm)
  | complete name hname =>
    intro a ha b hb hne da hda db hdb
    exact hinv a (List.mem_of_mem_erase ha) b (List.mem_of_mem_erase hb) hne da hda db hdb

theorem noConflict_reach {s s' : Sched} (hnd : (keysOf s.blanket).Nodup)
    (hstart : s.tasks = []) (h : SchedReach s s') : NoConflict s' := by
  induction h with
  | refl =>
    intro a ha
    rw [hstart] at ha
    simp at ha
  | tail hreach hstep ih =>
    refine noConflict_step ?_ ih hstep
    rw [schedReach_blanket_eq hreach]
    exact hnd

theorem completeBlanket_mem (latents : List String) {a : String} {da : List String}
    (h : (a, da) ∈ completeBlanket latents) : a ∈ latents ∧ da = latents := by
  rcases List.mem_map.mp h with ⟨n, hn, heq⟩
  have h1 : n = a := (Prod.mk.injEq _ _ _ _ ▸ heq).1
  have h2 : latents = da := (Prod.mk.injEq _ _ _ _ ▸ heq).2
  exact ⟨h1 ▸ hn, h2.symm⟩

theorem tasks_le_one_step {s s' : Sched} (latents : List String)
    (hbl : s.blanket = completeBlanket latents)
    (hsub : ∀ t ∈ s.tasks, t ∈ latents) (hlen : s.tasks.length ≤ 1)
    (hstep : SchedStep s s') :
    (∀ t ∈ s'.tasks, t ∈ latents) ∧ s'.tasks.length ≤ 1 := by
  cases hstep with
  | launch name t hfw =>
    obtain ⟨hfeas, _, _, htasks⟩ := findWork_spec s name t hfw
    obtain ⟨deps, hdeps, hnotin, hnodeps⟩ := feasible_props s name hfeas
    rw [hbl] at hdeps
    obtain ⟨hnl, hdl⟩ := completeBlanket_mem latents hdeps
    have hempty : s.tasks = [] := by
      cases htasks' : s.tasks with
      | nil => rfl
      | cons x xs =>
        exfalso
        have hx : x ∈ s.tasks := by rw [htasks']; simp
        exact hnodeps x (hdl ▸ hsub x hx) hx
    constructor
    · intro u hu
      simp only [htasks, hempty, List.nil_append, List.mem_singleton] at hu
      exact hu ▸ hnl
    · simp [htasks, hempty]
  | complete name hname =>
    constructor
    · intro u hu
      exact hsub u (List.mem_of_mem_erase hu)
    · calc (s.tasks.erase name).length ≤ s.tasks.length := List.length_erase_le _ _
        _ ≤ 1 := hlen

theorem tasks_le_one_reach {s s' : Sched} (latents : List String)
    (hbl : s.blanket = completeBlanket latents) (hstart : s.tasks = [])
    (h : SchedReach s s') : s'.tasks.length ≤ 1 := by
  have main : (∀ t ∈ s'.tasks, t ∈ latents) ∧ s'.tasks.length ≤ 1 := by
    induction h with
    | refl => exact ⟨fun t ht => absurd (hstart ▸ ht) (List.not_mem_nil t), by simp [hstart]⟩
    | tail hreach hstep ih =>
      exact tasks_le_one_step latents (by rw [schedReach_blanket_eq hreach]; exact hbl)
        ih.1 ih.2 hstep
  exact main.2

/-! ## Claim theorems: C2 -/

/-- C2: `RandomKey.split` (the live copy in `src/lyro/random.py`) is a pure
function of the key whose first result extends the chain by one level with
head 0, whose second result keeps the depth and increments the head, and
whose two results differ from each other and from the input.  The duplicate
copy of `RandomKey.split` in `src/lyro/distributions.py`, however, fails to
increment the head: its second result is structurally EQUAL to the input
key, in particular at the root key `(None, 0)`. -/
theorem randomKey_split_distributions_bug :
    (∀ k : RandomKey,
      (RandomKey.split k).1.depth = k.depth + 1 ∧
      (RandomKey.split k).1.head = 0 ∧
      (RandomKey.split k).2.depth = k.depth ∧
      (RandomKey.split k).2.head = k.head + 1 ∧
      (RandomKey.split k).1 ≠ (RandomKey.split k).2 ∧
      (RandomKey.split k).1 ≠ k ∧
      (RandomKey.split k).2 ≠ k) ∧
    (∀ k : RandomKey, (distributionsSplit k).2 = k) ∧
    (distributionsSplit RandomKey.root).2 = RandomKey.root := by
  refine ⟨fun k => ⟨k.depth_split_fst, rfl, k.depth_split_snd, ?_,
    k.split_fst_ne_snd, k.split_fst_ne, k.split_snd_ne⟩, fun k => ?_, rfl⟩
  · rw [RandomKey.split, RandomKey.head_withHead]
  · rw [distributionsSplit, RandomKey.withHead_head]

/-- C9 counterexample: in `src/lyro/interpreters.py`, stacking onto an
interpreter that already has a delegate does NOT fail: `__add__` silently
re-links `other.base`.  Here `b := modernAdd .unset .unset` has a delegate,
yet `modernAdd a b` succeeds and replaces the delegate. -/
theorem modernAdd_relinks_counterexample :
    PInterp.hasDelegate (modernAdd PInterp.unset PInterp.unset) = true ∧
    modernAdd (PInterp.set PInterp.unset) (modernAdd PInterp.unset PInterp.unset) =
      PInterp.set (PInterp.set PInterp.unset) := by
  exact ⟨rfl, rfl⟩

/-- C9 (amended): `A + B` makes `B` delegate to `A` in both implementations;
only the legacy `src/lyro/__init__.py` operator raises `ValueError` when `B`
already has a delegate, while the live `src/lyro/interpreters.py` operator
never fails and silently re-links. -/
theorem stack_add_amended :
    (∀ a b : PInterp, modernAdd a b = .set a) ∧
    (∀ a b : PInterp, b.hasDelegate = false → legacyAdd a b = .ok (.set a)) ∧
    (∀ a b : PInterp, b.hasDelegate = true → legacyAdd a b = .error ()) := by
  refine ⟨fun a b => rfl, fun a b hb => ?_, fun a b hb => ?_⟩
  · cases b with
    | unset => rfl
    | set t => exact absurd hb (by rw [PInterp.hasDelegate]; simp)
  · cases b with
    | unset => exact absurd hb (by rw [PInterp.hasDelegate]; simp)
    | set t => rfl

/-- Witness for `stack_add_amended` at concrete interpreter objects. -/
theorem stack_add_amended_witness :
    modernAdd PInterp.unset PInterp.unset = PInterp.set PInterp.unset ∧
    legacyAdd PInterp.unset PInterp.unset = .ok (.set .unset) ∧
    legacyAdd PInterp.unset (PInterp.set PInterp.unset) = .error () :=
  ⟨stack_add_amended.1 .unset .unset,
   stack_add_amended.2.1 .unset .unset rfl,
   stack_add_amended.2.2 .unset (.set .unset) rfl⟩

/-- C10: whatever `markov_blanket` argument the `Gibbs` constructor receives,
it is discarded (never assigned to the instance), so `_init` installs the
default complete dependency graph over the latent sites -- every latent
site's dependency list is the full latent list, itself included -- and under
that graph the in-flight task set never holds more than one site. -/
theorem gibbs_blanket_discarded (model : List (String × Dist))
    (data : List (String × String)) (mbArg : Option (List (String × List String)))
    (chain : Interp) (orc : Oracle) (cur : Nat) (g : GState)
    (h : gibbsInit model data (gibbsCtorBlanket mbArg) chain orc cur = .ok g) :
    g.sched.blanket =
      completeBlanket (keysOf (g.trace.filter fun p => (alookup data p.1).isNone)) ∧
    ∀ s', SchedReach g.sched s' → s'.tasks.length ≤ 1 := by
  unfold gibbsInit gibbsCtorBlanket at h
  cases hrun : runTraceCondition data chain model orc cur with
  | none => rw [hrun] at h; exact absurd h (by simp)
  | some res =>
    obtain ⟨ns, chain', cur'⟩ := res
    rw [hrun] at h
    by_cases hall : (data.all fun p => (alookup ns p.1).isSome) = true
    · simp only [hall, if_true, Except.ok.injEq] at h
      subst h
      refine ⟨rfl, fun s' hre => ?_⟩
      exact tasks_le_one_reach _ rfl rfl hre
    · simp only [hall, if_false] at h
      exact absurd h (by simp)

/-- Witness for `gibbs_blanket_discarded`: the two-site scenario with a
nontrivial `markov_blanket` argument (as in `test_gibbs_book`), which is
nonetheless replaced by the complete graph `[("a", ["a"])]`. -/
theorem gibbs_blanket_discarded_witness :
    ∃ g, gibbsInit progAB [("b", "X")] (gibbsCtorBlanket (some [("a", ["b"])]))
        defaultChain orcW 0 = .ok g ∧
      g.sched.blanket =
        completeBlanket (keysOf (g.trace.filter
          fun p => (alookup [("b", "X")] p.1).isNone)) ∧
      ∀ s', SchedReach g.sched s' → s'.tasks.length ≤ 1 :=
  ⟨_, rfl,
    (gibbs_blanket_discarded progAB [("b", "X")] (some [("a", ["b"])])
      defaultChain orcW 0 _ rfl).1,
    (gibbs_blanket_discarded progAB [("b", "X")] (some [("a", ["b"])])
      defaultChain orcW 0 _ rfl).2⟩

/-- C3: from any scheduling state with unique dependency-graph keys and an
empty in-flight set, every state reachable by launch/complete events
satisfies the no-concurrent-conflict invariant: the in-flight set never
holds two distinct sites lying in each other's dependency sets, because
`_find_work` only offers a site that is not in flight and none of whose
dependencies are in flight. -/
theorem gibbs_no_concurrent_conflict (s0 s : Sched)
    (hnd : (keysOf s0.blanket).Nodup) (h0 : s0.tasks = [])
    (h : SchedReach s0 s) : NoConflict s :=
  noConflict_reach hnd h0 h

/-- Witness for `gibbs_no_concurrent_conflict`: launching one site of the
mutually-dependent two-site graph. -/
theorem gibbs_no_concurrent_conflict_witness :
    NoConflict ⟨[("a", ["a", "b"]), ("b", ["a", "b"])], [("b", 0), ("a", 1)],
      [("b", 1)], ["b"]⟩ :=
  gibbs_no_concurrent_conflict schedAB _ (by decide) rfl
    (Relation.ReflTransGen.single (SchedStep.launch schedAB "b" _ rfl))

/-- C4 counterexample: cancelling `sample` while it awaits in-flight tasks
(the `await asyncio.gather` loop, which lies outside the
`except asyncio.CancelledError` handler) propagates with `num_pending`
still 1 and the in-flight map still holding site `b` -- the claim's
"pending budget is reset to 0" and "in-flight set is cleared" fail for this
phase. -/
theorem sample_cancel_wait_counterexample :
    sampleCancelled progAB [] none 2 orcW .duringWait =
      some ⟨true, ["b"], 1, true⟩ ∧ (1 : Nat) ≠ 0 ∧ (["b"] : List String) ≠ [] := by
  refine ⟨rfl, by simp, by simp⟩

/-- C4 (amended): a cancellation delivered during `_init` or during
`_start_work` is caught by `sample`'s handler, which cancels all started
tasks, clears the in-flight map, resets the pending budget to 0 and
re-raises; a cancellation delivered while awaiting in-flight tasks still
propagates and the awaited tasks are cancelled by `gather`, but `sample`'s
handler does not run, so the pending budget and the in-flight map are left
as they were. -/
theorem sample_cancel_amended (model : List (String × Dist))
    (data : List (String × String)) (mbArg : Option (List (String × List String)))
    (n : Nat) (orc : Oracle) :
    sampleCancelled model data mbArg n orc .duringInit = some ⟨true, [], 0, true⟩ ∧
    sampleCancelled model data mbArg n orc .duringStartWork =
      some ⟨true, [], 0, true⟩ ∧
    ∀ o, sampleCancelled model data mbArg n orc .duringWait = some o →
      o.propagated = true ∧ o.tasksCancelled = true := by
  refine ⟨rfl, rfl, fun o ho => ?_⟩
  unfold sampleCancelled at ho
  cases hinit : gibbsInit model data (gibbsCtorBlanket mbArg) defaultChain orc 0 with
  | error e => rw [hinit] at ho; exact absurd ho (by simp)
  | ok g0 =>
    rw [hinit] at ho
    simp only [Option.some_inj] at ho
    rw [← ho]
    exact ⟨rfl, rfl⟩

/-- Witness for `sample_cancel_amended` at the two-site scenario, with the
wait-phase hypothesis discharged at its computed outcome. -/
theorem sample_cancel_amended_witness :
    sampleCancelled progAB [] none 2 orcW .duringInit = some ⟨true, [], 0, true⟩ ∧
    sampleCancelled progAB [] none 2 orcW .duringStartWork =
      some ⟨true, [], 0, true⟩ ∧
    CancelOutcome.propagated ⟨true, ["b"], 1, true⟩ = true ∧
    CancelOutcome.tasksCancelled ⟨true, ["b"], 1, true⟩ = true :=
  ⟨(sample_cancel_amended progAB [] none 2 orcW).1,
   (sample_cancel_amended progAB [] none 2 orcW).2.1,
   ((sample_cancel_amended progAB [] none 2 orcW).2.2 ⟨true, ["b"], 1, true⟩ rfl).1,
   ((sample_cancel_amended progAB [] none 2 orcW).2.2 ⟨true, ["b"], 1, true⟩ rfl).2⟩

/-- C1: code bug.  `_do_work` enters `Trace() as trace` BEFORE
`Condition(data)` (line 113), so Condition heads the chain and short-circuits
every site in `data` -- which covers every site of a static program -- and
the recorded sub-trace is empty.  Concretely, for the one-site program `a`
with no observations and one Gibbs step: the freshly resampled value is
`"w1"` (ghost field `lastDraw`), but the merged shared trace still maps `a`
to the prior value `"w0"`, which is what `sample` returns. -/
theorem doWork_merge_loses_resample :
    ∃ g, gibbsSampleRun [("a", chatA)] [] none 1 orcW = .ok (g, [("a", "w0")]) ∧
      g.lastDraw = some "w1" ∧
      (∃ node, alookup g.trace "a" = some node ∧ node.value = "w0") ∧
      "w1" ≠ "w0" := by
  exact ⟨_, rfl, rfl, ⟨_, rfl, rfl⟩, by simp⟩

/-! ### Memoize determinism (C7) -/

theorem clookup_cons_self (c : List ((Dist × RandomKey) × String))
    (kd : Dist × RandomKey) (v : String) : clookup ((kd, v) :: c) kd = some v := by
  simp [clookup]

theorem clookup_cons_of_ne (c : List ((Dist × RandomKey) × String))
    (kd kd' : Dist × RandomKey) (v : String) (h : kd ≠ kd') :
    clookup ((kd, v) :: c) kd' = clookup c kd' := by
  simp [clookup, h]

theorem sample_stackTM (k : RandomKey) (c : List ((Dist × RandomKey) × String))
    (n : String) (d : Dist) (orc : Oracle) (cur : Nat) :
    Interp.sample (stackTM k c) n d none orc cur =
      match clookup c (d, (k.split).1) with
      | some v => some (v, stackTM (k.split).2 c, cur)
      | none => some (orc cur, stackTM (k.split).2 (((d, (k.split).1), orc cur) :: c),
          cur + 1) := by
  cases h : clookup c (d, (k.split).1) <;>
    simp [Interp.sample, stackTM, h]

/-- First run: always succeeds, has the `stackTM` shape with the threaded key
advanced, only grows the cache, and leaves every draw's key-value pair
recorded in the final cache. -/
theorem run1_spec (prog : List (String × Dist)) :
    ∀ (k : RandomKey) (c : List ((Dist × RandomKey) × String)) (orc : Oracle)
      (cur : Nat), ∃ vs c' cur',
      runProg (stackTM k c) prog orc cur = some (vs, stackTM (endKey k prog) c', cur') ∧
      (∀ key v, clookup c key = some v → clookup c' key = some v) ∧
      List.Forall₂ (fun kd v => clookup c' kd = some v) (keySeq k prog)
        (vs.map Prod.snd) ∧
      vs.map Prod.fst = prog.map Prod.fst := by
  induction prog with
  | nil =>
    intro k c orc cur
    exact ⟨[], c, cur, rfl, fun _ _ h => h, List.Forall₂.nil, rfl⟩
  | cons p rest ih =>
    intro k c orc cur
    obtain ⟨n, d⟩ := p
    cases hc : clookup c (d, (k.split).1) with
    | some v =>
      obtain ⟨vs', c', cur', hrun, hpres, hrec, hnames⟩ :=
        ih (k.split).2 c orc cur
      have hs : Interp.sample (stackTM k c) n d none orc cur =
          some (v, stackTM (k.split).2 c, cur) := by
        rw [sample_stackTM, hc]
      refine ⟨(n, v) :: vs', c', cur', ?_, hpres, ?_, ?_⟩
      · rw [runProg, hs]
        show (match runProg (stackTM (k.split).2 c) rest orc cur with
          | none => none
          | some (vs, i'', cur'') => some ((n, v) :: vs, i'', cur'')) = _
        rw [hrun]
        rfl
      · rw [show keySeq k ((n, d) :: rest)
            = (d, (k.split).1) :: keySeq (k.split).2 rest from rfl]
        exact List.Forall₂.cons (hpres _ _ hc) hrec
      · simpa using hnames
    | none =>
      obtain ⟨vs', c', cur', hrun, hpres, hrec, hnames⟩ :=
        ih (k.split).2 (((d, (k.split).1), orc cur) :: c) orc (cur + 1)
      have hs : Interp.sample (stackTM k c) n d none orc cur =
          some (orc cur, stackTM (k.split).2 (((d, (k.split).1), orc cur) :: c),
            cur + 1) := by
        rw [sample_stackTM, hc]
      refine ⟨(n, orc cur) :: vs', c', cur', ?_, ?_, ?_, ?_⟩
      · rw [runProg, hs]
        show (match runProg (stackTM (k.split).2 (((d, (k.split).1), orc cur) :: c))
            rest orc (cur + 1) with
          | none => none
          | some (vs, i'', cur'') => some ((n, orc cur) :: vs, i'', cur'')) = _
        rw [hrun]
        rfl
      · intro key v hv
        refine hpres key v ?_
        have hne : (d, (k.split).1) ≠ key := by
          intro he
          rw [← he] at hv
          rw [hv] at hc
          exact absurd hc (by simp)
        rw [clookup_cons_of_ne _ _ _ _ hne]
        exact hv
      · rw [show keySeq k ((n, d) :: rest)
            = (d, (k.split).1) :: keySeq (k.split).2 rest from rfl]
        refine List.Forall₂.cons (hpres _ _ (clookup_cons_self _ _ _)) hrec
      · simpa using hnames

/-- Second run over a cache that already records every draw of the program:
every draw is a cache hit, the values are read back verbatim, the cache and
the oracle cursor do not change, and the oracle is never consulted. -/
theorem run2_cached (prog : List (String × Dist)) :
    ∀ (k : RandomKey) (d : List ((Dist × RandomKey) × String)) (orc : Oracle)
      (cur : Nat) (vs : List (String × String)),
      List.Forall₂ (fun kd v => clookup d kd = some v) (keySeq k prog)
        (vs.map Prod.snd) →
      vs.map Prod.fst = prog.map Prod.fst →
      runProg (stackTM k d) prog orc cur = some (vs, stackTM (endKey k prog) d, cur) := by
  induction prog with
  | nil =>
    intro k d orc cur vs hrec hnames
    cases vs with
    | nil => rfl
    | cons v vt => simp at hnames
  | cons p rest ih =>
    intro k d orc cur vs hrec hnames
    obtain ⟨n, dd⟩ := p
    cases vs with
    | nil => simp at hnames
    | cons v vt =>
      rw [show keySeq k ((n, dd) :: rest)
          = (dd, (k.split).1) :: keySeq (k.split).2 rest from rfl] at hrec
      simp only [List.map_cons] at hrec hnames
      cases hrec with
      | cons hhit htail =>
        injection hnames with hn htl
        have hs : Interp.sample (stackTM k d) n dd none orc cur =
            some (v.2, stackTM (k.split).2 d, cur) := by
          rw [sample_stackTM, hhit]
        rw [runProg, hs]
        show (match runProg (stackTM (k.split).2 d) rest orc cur with
          | none => none
          | some (vs, i'', cur'') => some ((n, v.2) :: vs, i'', cur'')) = _
        rw [ih (k.split).2 d orc cur vt htail htl]
        have hv : v = (n, v.2) := by
          rw [← hn]
        rw [hv]
        rfl

/-- C7: running a fixed program twice, each time under a fresh
`ThreadRandomKey` holding the same initial `RandomKey`, stacked over one
shared `Memoize` over `Standard` (the second run's Memoize carries the cache
produced by the first), yields identical resolved `(site, value)` lists --
regardless of the external nondeterminism `orc₁`, `orc₂` of the two runs. -/
theorem memoize_two_runs_deterministic (prog : List (String × Dist))
    (k : RandomKey) (orc₁ orc₂ : Oracle)
    (vs₁ : List (String × String)) (i₁ : Interp) (cur₁ : Nat)
    (h₁ : runProg (stackTM k []) prog orc₁ 0 = some (vs₁, i₁, cur₁))
    (vs₂ : List (String × String)) (i₂ : Interp) (cur₂ : Nat)
    (h₂ : runProg (.thread k false (.memoize (memCacheOf i₁) .standard))
      prog orc₂ 0 = some (vs₂, i₂, cur₂)) :
    vs₁ = vs₂ := by
  obtain ⟨vs, c', cur', hrun, _, hrec, hnames⟩ := run1_spec prog k [] orc₁ 0
  rw [hrun] at h₁
  obtain ⟨hv, hi, hc⟩ : vs = vs₁ ∧ stackTM (endKey k prog) c' = i₁ ∧ cur' = cur₁ := by
    have := Option.some.inj h₁
    exact ⟨(Prod.mk.injEq _ _ _ _ ▸ this).1,
      (Prod.mk.injEq _ _ _ _ ▸ (Prod.mk.injEq _ _ _ _ ▸ this).2).1,
      (Prod.mk.injEq _ _ _ _ ▸ (Prod.mk.injEq _ _ _ _ ▸ this).2).2⟩
  have hcache : memCacheOf i₁ = c' := by
    rw [← hi]
    rfl
  rw [hcache] at h₂
  have h₂' : runProg (stackTM k c') prog orc₂ 0 =
      some (vs, stackTM (endKey k prog) c', 0) :=
    run2_cached prog k c' orc₂ 0 vs hrec hnames
  rw [show Interp.thread k false (.memoize c' .standard) = stackTM k c' from rfl] at h₂
  rw [h₂'] at h₂
  have := Option.some.inj h₂
  have hv2 : vs = vs₂ := (Prod.mk.injEq _ _ _ _ ▸ this).1
  rw [← hv, ← hv2]

/-- Witness for `memoize_two_runs_deterministic`: the two-site program, first
run under oracle `orcW`, second under the everywhere-different oracle `orcZ`;
the resolved values agree anyway (and the second run consumes no oracle:
its cursor stays 0). -/
theorem memoize_two_runs_witness :
    runProg (stackTM RandomKey.root []) progAB orcW 0 =
      some (memRun1Vals, memRun1Chain, 2) ∧
    runProg (.thread RandomKey.root false
      (.memoize (memCacheOf memRun1Chain) .standard)) progAB orcZ 0 =
      some (memRun2Vals, memRun2Chain, 0) ∧
    memRun1Vals = memRun2Vals :=
  ⟨rfl, rfl,
    memoize_two_runs_deterministic progAB RandomKey.root orcW orcZ
      memRun1Vals memRun1Chain 2 rfl memRun2Vals memRun2Chain 0 rfl⟩

/-! ### Small dict facts used by the scheduler proofs -/

theorem alookup_mem {β : Type} (l : List (String × β)) (k : String) (v : β)
    (h : alookup l k = some v) : (k, v) ∈ l := by
  induction l with
  | nil => simp [alookup] at h
  | cons p t ih =>
    obtain ⟨a, b⟩ := p
    by_cases ha : a = k
    · simp only [alookup, if_pos ha] at h
      rw [Option.some_inj] at h
      rw [← h, ← ha]
      simp
    · simp only [alookup, if_neg ha] at h
      exact List.mem_cons_of_mem _ (ih h)

theorem alookup_of_mem_nodup {β : Type} (l : List (String × β))
    (h : (keysOf l).Nodup) {a : String} {v : β} (hmem : (a, v) ∈ l) :
    alookup l a = some v := by
  induction l with
  | nil => simp at hmem
  | cons p t ih =>
    simp only [keysOf, List.map_cons, List.nodup_cons] at h
    rcases List.mem_cons.mp hmem with h1 | h1
    · rw [← h1]
      simp [alookup]
    · obtain ⟨pa, pb⟩ := p
      have hpa : pa ≠ a := by
        intro he
        exact h.1 (he ▸ List.mem_map.mpr ⟨(a, v), h1, rfl⟩)
      simp only [alookup, if_neg hpa]
      exact ih h.2 h1

theorem keysOf_nodup_upsert {β : Type} (l : List (String × β)) (k : String)
    (v : β) (h : (keysOf l).Nodup) : (keysOf (upsert l k v)).Nodup := by
  rw [keysOf_upsert]
  by_cases hm : k ∈ keysOf l
  · rw [if_pos hm]; exact h
  · rw [if_neg hm]
    simpa [List.nodup_append] using ⟨h, fun hk => hm hk⟩

theorem alookup_map_const {β : Type} (full : β) (latents : List String)
    (name : String) (h : name ∈ latents) :
    alookup (latents.map fun n => (n, full)) name = some full := by
  induction latents with
  | nil => simp at h
  | cons x t ih =>
    by_cases hx : x = name
    · simp [alookup, hx]
    · have hmem : name ∈ t := by
        rcases List.mem_cons.mp h with h1 | h1
        · exact absurd h1.symm hx
        · exact h1
      simp only [List.map_cons, alookup, if_neg hx]
      exact ih hmem

theorem alookup_completeBlanket (latents : List String) (name : String)
    (h : name ∈ latents) : alookup (completeBlanket latents) name = some latents :=
  alookup_map_const latents latents name h

theorem dictUpdate_nil {β : Type} (l : List (String × β)) : dictUpdate l [] = l := rfl

/-! ### Characterizations of the with-block re-executions -/

theorem sample_condition_hit (data : List (String × String)) (inner : Interp)
    (n : String) (d : Dist) (rng : Option RandomKey) (orc : Oracle) (cur : Nat)
    (v : String) (hv : alookup data n = some v) :
    Interp.sample (.condition data inner) n d rng orc cur =
      some (v, .condition data inner, cur) := by
  rw [Interp.sample, hv]

theorem sample_trace_step (tns : List (String × TraceNode)) (b : Interp)
    (n : String) (d : Dist) (rng : Option RandomKey) (orc : Oracle) (cur : Nat)
    (v : String) (b' : Interp) (cur' : Nat)
    (h : Interp.sample b n d rng orc cur = some (v, b', cur')) :
    Interp.sample (.trace tns b) n d rng orc cur =
      some (v, .trace (upsert tns n ⟨n, d, rng, v⟩) b', cur') := by
  rw [Interp.sample, h]

theorem sample_condition_miss (data : List (String × String)) (b : Interp)
    (n : String) (d : Dist) (rng : Option RandomKey) (orc : Oracle) (cur : Nat)
    (v : String) (b' : Interp) (cur' : Nat) (hv : alookup data n = none)
    (h : Interp.sample b n d rng orc cur = some (v, b', cur')) :
    Interp.sample (.condition data b) n d rng orc cur =
      some (v, .condition data b', cur') := by
  rw [Interp.sample, hv, h]

theorem sample_trace_condition_hit (tns : List (String × TraceNode))
    (data : List (String × String)) (inner : Interp) (n : String) (d : Dist)
    (orc : Oracle) (cur : Nat) (v : String) (hv : alookup data n = some v) :
    Interp.sample (.trace tns (.condition data inner)) n d none orc cur =
      some (v, .trace (upsert tns n ⟨n, d, none, v⟩) (.condition data inner), cur) :=
  sample_trace_step tns _ n d none orc cur v _ cur
    (sample_condition_hit data inner n d none orc cur v hv)

theorem sample_trace_condition_miss_tm (tns : List (String × TraceNode))
    (data : List (String × String)) (k : RandomKey)
    (c : List ((Dist × RandomKey) × String)) (n : String) (d : Dist)
    (orc : Oracle) (cur : Nat) (hv : alookup data n = none) :
    ∃ v k2 c2 cur2,
      Interp.sample (.trace tns (.condition data (stackTM k c))) n d none orc cur =
        some (v, .trace (upsert tns n ⟨n, d, none, v⟩)
          (.condition data (stackTM k2 c2)), cur2) := by
  cases hc : clookup c (d, (k.split).1) with
  | some v0 =>
    refine ⟨v0, (k.split).2, c, cur, ?_⟩
    have h1 : Interp.sample (stackTM k c) n d none orc cur =
        some (v0, stackTM (k.split).2 c, cur) := by
      rw [sample_stackTM, hc]
    exact sample_trace_step tns _ n d none orc cur v0 _ cur
      (sample_condition_miss data _ n d none orc cur v0 _ cur hv h1)
  | none =>
    refine ⟨orc cur, (k.split).2, ((d, (k.split).1), orc cur) :: c, cur + 1, ?_⟩
    have h1 : Interp.sample (stackTM k c) n d none orc cur =
        some (orc cur, stackTM (k.split).2 (((d, (k.split).1), orc cur) :: c),
          cur + 1) := by
      rw [sample_stackTM, hc]
    exact sample_trace_step tns _ n d none orc cur (orc cur) _ (cur + 1)
      (sample_condition_miss data _ n d none orc cur (orc cur) _ (cur + 1) hv h1)

theorem runProg_step (i : Interp) (n : String) (d : Dist)
    (rest : List (String × Dist)) (orc : Oracle) (cur : Nat) (v : String)
    (i' : Interp) (cur' : Nat)
    (hs : Interp.sample i n d none orc cur = some (v, i', cur'))
    {vs : List (String × String)} {i'' : Interp} {cur'' : Nat}
    (hr : runProg i' rest orc cur' = some (vs, i'', cur'')) :
    runProg i ((n, d) :: rest) orc cur = some ((n, v) :: vs, i'', cur'') := by
  rw [runProg, hs]
  show (match runProg i' rest orc cur' with
    | none => none
    | some (vs, j, cu) => some ((n, v) :: vs, j, cu)) = _
  rw [hr]

/-- A re-execution whose `Condition` HEADS the chain (the `_do_work` merge
re-run) with every program site observed: every draw short-circuits, the
inner chain -- including the sub-`Trace` -- is never reached, and nothing
advances. -/
theorem runProg_condition_covered (prog : List (String × Dist)) :
    ∀ (data : List (String × String)) (inner : Interp) (orc : Oracle) (cur : Nat),
    (∀ p ∈ prog, (alookup data p.1).isSome) →
    runProg (.condition data inner) prog orc cur =
      some (prog.map (fun p => (p.1, (alookup data p.1).getD "")),
        .condition data inner, cur) := by
  induction prog with
  | nil => intro data inner orc cur _; rfl
  | cons p rest ih =>
    intro data inner orc cur hcov
    obtain ⟨n, d⟩ := p
    obtain ⟨v, hv⟩ : ∃ v, alookup data n = some v :=
      Option.isSome_iff_exists.mp (hcov (n, d) (by simp))
    have hr := ih data inner orc cur (fun q hq => hcov q (by simp [hq]))
    have := runProg_step (.condition data inner) n d rest orc cur v _ cur
      (sample_condition_hit data inner n d none orc cur v hv) hr
    rw [this]
    simp [hv]

/-- A re-execution with `Trace` heading the chain over a `Condition` that
covers every program site (`get_likelihoods`): every draw is answered by the
Condition and recorded by the Trace; the delegate below the Condition is
untouched and the oracle cursor does not advance.  The recorded nodes carry
the program's distributions and the conditioned values. -/
theorem runProg_trace_condition_covered (prog : List (String × Dist)) :
    ∀ (data : List (String × String)) (tns : List (String × TraceNode))
      (inner : Interp) (orc : Oracle) (cur : Nat),
    (∀ p ∈ prog, (alookup data p.1).isSome) →
    ∃ tns',
      runProg (.trace tns (.condition data inner)) prog orc cur =
        some (prog.map (fun p => (p.1, (alookup data p.1).getD "")),
          .trace tns' (.condition data inner), cur) ∧
      (∀ nm node, alookup tns' nm = some node → alookup tns nm = some node ∨
        ((nm, node.dist) ∈ prog ∧ alookup data nm = some node.value)) ∧
      (∀ nm, nm ∈ prog.map Prod.fst → ∃ node, alookup tns' nm = some node ∧
        (nm, node.dist) ∈ prog ∧ alookup data nm = some node.value) ∧
      (∀ nm, nm ∉ prog.map Prod.fst → alookup tns' nm = alookup tns nm) := by
  induction prog with
  | nil =>
    intro data tns inner orc cur _
    exact ⟨tns, rfl, fun nm node h => Or.inl h, by simp, fun nm _ => rfl⟩
  | cons p rest ih =>
    intro data tns inner orc cur hcov
    obtain ⟨n, d⟩ := p
    obtain ⟨v, hv⟩ : ∃ v, alookup data n = some v :=
      Option.isSome_iff_exists.mp (hcov (n, d) (by simp))
    obtain ⟨tns', hrun, P1, P2, P3⟩ :=
      ih data (upsert tns n ⟨n, d, none, v⟩) inner orc cur
        (fun q hq => hcov q (by simp [hq]))
    refine ⟨tns', ?_, ?_, ?_, ?_⟩
    · have := runProg_step (.trace tns (.condition data inner)) n d rest orc cur v
        _ cur (sample_trace_condition_hit tns data inner n d orc cur v hv) hrun
      rw [this]
      simp [hv]
    · intro nm node h
      rcases P1 nm node h with h1 | h1
      · by_cases hnm : nm = n
        · subst hnm
          rw [alookup_upsert_self] at h1
          rw [Option.some_inj] at h1
          right
          refine ⟨?_, ?_⟩
          · rw [← h1]; simp
          · rw [← h1]; exact hv
        · left
          rw [alookup_upsert_ne _ _ _ _ (fun he => hnm he.symm)] at h1
          exact h1
      · exact Or.inr ⟨List.mem_cons_of_mem _ h1.1, h1.2⟩
    · intro nm hnm
      by_cases hr : nm ∈ rest.map Prod.fst
      · obtain ⟨node, ha, hb, hc⟩ := P2 nm hr
        exact ⟨node, ha, List.mem_cons_of_mem _ hb, hc⟩
      · have hn : nm = n := by
          rw [List.map_cons] at hnm
          rcases List.mem_cons.mp hnm with h1 | h1
          · exact h1
          · exact absurd h1 hr
        subst hn
        refine ⟨⟨nm, d, none, v⟩, ?_, by simp, hv⟩
        rw [P3 nm hr, alookup_upsert_self]
    · intro nm hnm
      have hn : nm ≠ n := fun he => hnm (by simp [he])
      have hr : nm ∉ rest.map Prod.fst := fun hm => hnm (by simp [hm])
      rw [P3 nm hr, alookup_upsert_ne _ _ _ _ (fun he => hn he.symm)]

/-- The `_init` forward pass: `Trace` over `Condition(data)` over the module
default chain.  Observed sites are answered by the Condition with the
observed value; latent sites reach the ThreadRandomKey/Memoize/Standard
stack, which always succeeds.  All sites are recorded; the chain keeps its
shape. -/
theorem runProg_trace_condition_tm (prog : List (String × Dist)) :
    ∀ (data : List (String × String)) (tns : List (String × TraceNode))
      (k : RandomKey) (c : List ((Dist × RandomKey) × String)) (orc : Oracle)
      (cur : Nat),
    ∃ vs tns' k' c' cur',
      runProg (.trace tns (.condition data (stackTM k c))) prog orc cur =
        some (vs, .trace tns' (.condition data (stackTM k' c')), cur') ∧
      (∀ nm node, alookup tns' nm = some node → alookup tns nm = some node ∨
        (nm, node.dist) ∈ prog) ∧
      (∀ nm, nm ∈ prog.map Prod.fst → ∃ node, alookup tns' nm = some node ∧
        (nm, node.dist) ∈ prog ∧ ∀ v, alookup data nm = some v → node.value = v) ∧
      (∀ nm, nm ∉ prog.map Prod.fst → alookup tns' nm = alookup tns nm) := by
  induction prog with
  | nil =>
    intro data tns k c orc cur
    exact ⟨[], tns, k, c, cur, rfl, fun nm node h => Or.inl h, by simp,
      fun nm _ => rfl⟩
  | cons p rest ih =>
    intro data tns k c orc cur
    obtain ⟨n, d⟩ := p
    have main : ∀ (v : String) (k1 : RandomKey)
        (c1 : List ((Dist × RandomKey) × String)) (cur1 : Nat),
        Interp.sample (.trace tns (.condition data (stackTM k c))) n d none orc cur =
          some (v, .trace (upsert tns n ⟨n, d, none, v⟩)
            (.condition data (stackTM k1 c1)), cur1) →
        (∀ w, alookup data n = some w → v = w) →
        ∃ vs tns' k' c' cur',
          runProg (.trace tns (.condition data (stackTM k c))) ((n, d) :: rest)
            orc cur = some (vs, .trace tns' (.condition data (stackTM k' c')), cur') ∧
          (∀ nm node, alookup tns' nm = some node → alookup tns nm = some node ∨
            (nm, node.dist) ∈ (n, d) :: rest) ∧
          (∀ nm, nm ∈ ((n, d) :: rest).map Prod.fst →
            ∃ node, alookup tns' nm = some node ∧
              (nm, node.dist) ∈ (n, d) :: rest ∧
              ∀ v', alookup data nm = some v' → node.value = v') ∧
          (∀ nm, nm ∉ ((n, d) :: rest).map Prod.fst →
            alookup tns' nm = alookup tns nm) := by
      intro v k1 c1 cur1 hs hval
      obtain ⟨vs', tns', k', c', cur', hrun, P1, P2, P3⟩ :=
        ih data (upsert tns n ⟨n, d, none, v⟩) k1 c1 orc cur1
      refine ⟨(n, v) :: vs', tns', k', c', cur', ?_, ?_, ?_, ?_⟩
      · exact runProg_step _ n d rest orc cur v _ cur1 hs hrun
      · intro nm node h
        rcases P1 nm node h with h1 | h1
        · by_cases hnm : nm = n
          · subst hnm
            rw [alookup_upsert_self] at h1
            rw [Option.some_inj] at h1
            right
            rw [← h1]
            simp
          · left
            rw [alookup_upsert_ne _ _ _ _ (fun he => hnm he.symm)] at h1
            exact h1
        · exact Or.inr (List.mem_cons_of_mem _ h1)
      · intro nm hnm
        by_cases hr : nm ∈ rest.map Prod.fst
        · obtain ⟨node, ha, hb, hc⟩ := P2 nm hr
          exact ⟨node, ha, List.mem_cons_of_mem _ hb, hc⟩
        · have hn : nm = n := by
            rw [List.map_cons] at hnm
            rcases List.mem_cons.mp hnm with h1 | h1
            · exact h1
            · exact absurd h1 hr
          subst hn
          refine ⟨⟨nm, d, none, v⟩, ?_, by simp, fun v' hv' => hval v' hv'⟩
          rw [P3 nm hr, alookup_upsert_self]
      · intro nm hnm
        have hn : nm ≠ n := fun he => hnm (by simp [he])
        have hr : nm ∉ rest.map Prod.fst := fun hm => hnm (by simp [hm])
        rw [P3 nm hr, alookup_upsert_ne _ _ _ _ (fun he => hn he.symm)]
    cases hv : alookup data n with
    | some v =>
      exact main v k c cur
        (sample_trace_condition_hit tns data _ n d orc cur v hv)
        (fun w hw => by rw [hv] at hw; exact (Option.some_inj.mp hw).symm ▸ rfl)
    | none =>
      obtain ⟨v, k2, c2, cur2, hs⟩ :=
        sample_trace_condition_miss_tm tns data k c n d orc cur hv
      exact main v k2 c2 cur2 hs
        (fun w hw => by rw [hv] at hw; exact absurd hw (by simp))

/-- The neighbor checks of `get_likelihoods` succeed when every dependency
other than the site itself is recorded with a `ChatGPT` distribution. -/
theorem likelihoodsCheck_ok (deps : List String) (name : String)
    (ns : List (String × TraceNode))
    (h : ∀ d ∈ deps, d ≠ name →
      ∃ node, alookup ns d = some node ∧ node.dist.kind = .chatGPT) :
    likelihoodsCheck deps name ns = .ok () := by
  induction deps with
  | nil => rfl
  | cons d rest ihd =>
    have htl := ihd (fun x hx hxn => h x (List.mem_cons_of_mem _ hx) hxn)
    by_cases hd : d = name
    · rw [likelihoodsCheck, if_pos hd]
      exact htl
    · obtain ⟨node, hn, hk⟩ := h d (by simp) hd
      rw [likelihoodsCheck, if_neg hd, hn]
      show (if node.dist.kind = .chatGPT then likelihoodsCheck rest name ns
        else .error .neighborNotChat) = _
      rw [if_pos hk]
      exact htl

/-- The local posterior draw under a fresh `Trace` over the default-shaped
chain always succeeds and keeps the chain's shape. -/
theorem drawOne_tm (name : String) (dist : Dist) (k : RandomKey)
    (c : List ((Dist × RandomKey) × String)) (orc : Oracle) (cur : Nat) :
    ∃ v k' c' cur',
      drawOne name dist (stackTM k c) orc cur = some (v, stackTM k' c', cur') := by
  cases hc : clookup c (dist, (k.split).1) with
  | some v =>
    refine ⟨v, (k.split).2, c, cur, ?_⟩
    have h1 : Interp.sample (stackTM k c) name dist none orc cur =
        some (v, stackTM (k.split).2 c, cur) := by
      rw [sample_stackTM, hc]
    have h2 := sample_trace_step [] _ name dist none orc cur v _ cur h1
    rw [drawOne, h2]
  | none =>
    refine ⟨orc cur, (k.split).2, ((dist, (k.split).1), orc cur) :: c, cur + 1, ?_⟩
    have h1 : Interp.sample (stackTM k c) name dist none orc cur =
        some (orc cur, stackTM (k.split).2 (((dist, (k.split).1), orc cur) :: c),
          cur + 1) := by
      rw [sample_stackTM, hc]
    have h2 := sample_trace_step [] _ name dist none orc cur (orc cur) _ (cur + 1) h1
    rw [drawOne, h2]

theorem keysOf_completeBlanket (latents : List String) :
    keysOf (completeBlanket latents) = latents := by
  rw [keysOf, completeBlanket, List.map_map]
  show List.map id latents = latents
  exact List.map_id _

/-- Under the complete dependency graph with no task in flight and a
well-formed counter, `_find_work` always finds a site: either no counts are
recorded yet (everything is feasible) or the site attaining the recorded
minimum is feasible. -/
theorem findWork_some (s : Sched) (latents : List String)
    (hbl : s.blanket = completeBlanket latents) (hlat : latents ≠ [])
    (htasks : s.tasks = []) (hsub : ∀ nm ∈ keysOf s.counts, nm ∈ latents)
    (hnd : (keysOf s.counts).Nodup) :
    ∃ nm s', s.findWork = some (nm, s') ∧ nm ∈ latents ∧
      s'.blanket = s.blanket ∧ s'.rank = s.rank ∧ s'.tasks = s.tasks ∧
      s'.counts = upsert s.counts nm (countOf s.counts nm + 1) := by
  have hfeas : ∃ nm0, nm0 ∈ s.feasible := by
    have hmk : ∀ nm0 ∈ latents, countOf s.counts nm0 ≤ slowestOf s.counts →
        nm0 ∈ s.feasible := by
      intro nm0 hl hcnt
      have hentry : (nm0, latents) ∈ s.blanket := by
        rw [hbl]
        exact List.mem_map.mpr ⟨nm0, hl, rfl⟩
      refine List.mem_map.mpr ⟨(nm0, latents), List.mem_filter.mpr ⟨hentry, ?_⟩, rfl⟩
      simp only [htasks, Bool.and_eq_true, Bool.not_eq_true']
      refine ⟨⟨by simp, ?_⟩, by simpa using hcnt⟩
      simp
    cases hc : s.counts with
    | nil =>
      obtain ⟨x, hx⟩ : ∃ x, x ∈ latents := by
        cases latents with
        | nil => exact absurd rfl hlat
        | cons y t => exact ⟨y, by simp⟩
      exact ⟨x, hmk x hx (by simp [hc, countOf, slowestOf, alookup])⟩
    | cons e t =>
      obtain ⟨m, hm⟩ : ∃ m, (s.counts.map Prod.snd).min? = some m := by
        rw [hc, List.map_cons]
        exact ⟨_, List.min?_cons⟩
      have hmem : m ∈ s.counts.map Prod.snd :=
        List.min?_mem (fun a b => min_choice a b) hm
      obtain ⟨entry, hent, hsnd⟩ := List.mem_map.mp hmem
      have hlook : alookup s.counts entry.1 = some entry.2 :=
        alookup_of_mem_nodup s.counts hnd (by cases entry; exact hent)
      have hin : entry.1 ∈ latents :=
        hsub entry.1 (List.mem_map.mpr ⟨entry, hent, rfl⟩)
      refine ⟨entry.1, hmk entry.1 hin ?_⟩
      rw [countOf, hlook, slowestOf, hm]
      simp [hsnd]
  obtain ⟨nm0, hnm0⟩ := hfeas
  cases hfe : s.feasible with
  | nil => rw [hfe] at hnm0; simp at hnm0
  | cons x t =>
    have hargmin : argminLex
        (fun name => (countOf s.counts name, (alookup s.rank name).getD 0))
        s.feasible = some (t.foldl (fun b y =>
          if lexLt (countOf s.counts y, (alookup s.rank y).getD 0)
            (countOf s.counts b, (alookup s.rank b).getD 0) then y else b) x) := by
      rw [hfe]
      rfl
    set best := t.foldl (fun b y =>
        if lexLt (countOf s.counts y, (alookup s.rank y).getD 0)
          (countOf s.counts b, (alookup s.rank b).getD 0) then y else b) x with hbest
    have hbmem : best ∈ s.feasible := by
      rw [hfe]
      exact foldl_pick_mem _ t x
    have hblat : best ∈ latents := by
      obtain ⟨deps, hdeps, _, _⟩ := feasible_props s best hbmem
      rw [hbl] at hdeps
      exact (completeBlanket_mem latents hdeps).1
    refine ⟨best, { s with counts := upsert s.counts best (countOf s.counts best + 1) },
      ?_, hblat, rfl, rfl, rfl, rfl⟩
    rw [Sched.findWork, hargmin]

theorem mem_latentsOf (data : List (String × String))
    (tr : List (String × TraceNode)) (nm : String) :
    nm ∈ latentsOf data tr ↔ nm ∈ keysOf tr ∧ alookup data nm = none := by
  constructor
  · intro h
    obtain ⟨p, hp, hfst⟩ := List.mem_map.mp h
    obtain ⟨hmem, hpred⟩ := List.mem_filter.mp hp
    refine ⟨List.mem_map.mpr ⟨p, hmem, hfst⟩, ?_⟩
    rw [← hfst]
    exact Option.isNone_iff_eq_none.mp (by simpa using hpred)
  · rintro ⟨hmem, hnone⟩
    obtain ⟨p, hp, hfst⟩ := List.mem_map.mp hmem
    refine List.mem_map.mpr ⟨p, List.mem_filter.mpr ⟨hp, ?_⟩, hfst⟩
    simp [hfst, hnone]

theorem keysOf_traceData (tr : List (String × TraceNode)) :
    keysOf (traceData tr) = keysOf tr := by
  simp [keysOf, traceData]

/-- A successful `_init` establishes the loop invariant. -/
theorem gibbsInit_inv (model : List (String × Dist))
    (data : List (String × String)) (k : RandomKey)
    (c : List ((Dist × RandomKey) × String)) (orc : Oracle) (cur : Nat)
    (g : GState) (h : gibbsInit model data none (stackTM k c) orc cur = .ok g) :
    LoopInv model data g := by
  obtain ⟨vs, tns', k', c', cur', hrun, P1, P2, P3⟩ :=
    runProg_trace_condition_tm model data [] k c orc cur
  unfold gibbsInit runTraceCondition at h
  rw [hrun] at h
  by_cases hall : (data.all fun p => (alookup tns' p.1).isSome) = true
  · simp only [hall, if_true, Except.ok.injEq] at h
    have hdatasub : ∀ nm v, alookup data nm = some v → nm ∈ model.map Prod.fst := by
      intro nm v hv
      by_contra hnot
      have := P3 nm hnot
      rw [show alookup ([] : List (String × TraceNode)) nm = none from rfl] at this
      have hmem := alookup_mem data nm v hv
      have := List.all_eq_true.mp hall (nm, v) hmem
      rw [show (nm, v).1 = nm from rfl] at this
      rw [‹alookup tns' nm = none›] at this
      simp at this
    subst h
    refine ⟨rfl, rfl, ?_, ?_, ?_, rfl, rfl, by simp [keysOf], by simp [keysOf],
      ⟨k', c', rfl⟩⟩
    · intro p hp
      obtain ⟨node, ha, _, _⟩ := P2 p.1 (List.mem_map.mpr ⟨p, hp, rfl⟩)
      exact (alookup_isSome_iff_mem _ _).mp (by rw [ha]; rfl)
    · intro nm node hnode
      rcases P1 nm node hnode with h1 | h1
      · rw [show alookup ([] : List (String × TraceNode)) nm = none from rfl] at h1
        exact absurd h1 (by simp)
      · exact h1
    · intro nm v hv
      obtain ⟨node, ha, _, hval⟩ := P2 nm (hdatasub nm v hv)
      exact ⟨node, ha, hval v hv⟩
  · simp only [Bool.not_eq_true] at hall
    simp only [hall, if_false] at h
    simp at h

theorem mem_keys_upsert_of_mem {β : Type} (l : List (String × β)) (k k' : String)
    (v : β) (h : k' ∈ keysOf l) : k' ∈ keysOf (upsert l k v) := by
  rw [keysOf_upsert]
  by_cases hm : k ∈ keysOf l
  · rw [if_pos hm]; exact h
  · rw [if_neg hm]; exact List.mem_append_left _ h

/-- A full `_do_work` body succeeds under the loop invariant: the shared
trace is NOT changed (the merge is empty), the default chain advances by one
split and at most one cache entry, and the drawn value is only retained in
the ghost `lastDraw`. -/
theorem doWork_ok (model : List (String × Dist)) (data : List (String × String))
    (g : GState) (name : String) (orc : Oracle)
    (hinv : LoopInv model data g)
    (hchat : ∀ p ∈ model, alookup data p.1 = none → p.2.kind = .chatGPT)
    (hname : name ∈ latentsOf data g.trace) :
    ∃ v k2 c2 cur2,
      doWork g name false orc = ⟨.ok { g with
        trace := g.trace, chain := stackTM k2 c2, cur := cur2,
        lastDraw := some v }, false, []⟩ := by
  obtain ⟨hkeys, hnone⟩ := (mem_latentsOf data g.trace name).mp hname
  obtain ⟨node, hnode⟩ : ∃ node, alookup g.trace name = some node :=
    Option.isSome_iff_exists.mp ((alookup_isSome_iff_mem _ _).mpr hkeys)
  have hkind : node.dist.kind = .chatGPT :=
    hchat (name, node.dist) (hinv.distProv name node hnode) hnone
  have hmodelEq := hinv.modelEq
  have hcovL : ∀ p ∈ g.model,
      (alookup (upsert (traceData g.trace) name FusedVariable) p.1).isSome := by
    intro p hp
    rw [alookup_isSome_iff_mem]
    exact mem_keys_upsert_of_mem _ _ _ _
      (by rw [keysOf_traceData]; exact hinv.covered p (hmodelEq ▸ hp))
  obtain ⟨k, c, hchain⟩ := hinv.chainTM
  obtain ⟨tns', hrunL, _, Q2, _⟩ :=
    runProg_trace_condition_covered g.model
      (upsert (traceData g.trace) name FusedVariable) [] (stackTM k c) orc g.cur hcovL
  have hrtc : runTraceCondition (upsert (traceData g.trace) name FusedVariable)
      (stackTM k c) g.model orc g.cur = some (tns', stackTM k c, g.cur) := by
    rw [runTraceCondition, hrunL]
  have hdeps : depsOf g.sched name = latentsOf data g.trace := by
    rw [depsOf, hinv.blanketEq, alookup_completeBlanket _ _ hname]
    rfl
  have hlc : likelihoodsCheck (depsOf g.sched name) name tns' = .ok () := by
    rw [hdeps]
    refine likelihoodsCheck_ok _ _ _ ?_
    intro dep hdep hne
    obtain ⟨hdk, hdn⟩ := (mem_latentsOf data g.trace dep).mp hdep
    obtain ⟨nodeD, hnodeD⟩ : ∃ nodeD, alookup g.trace dep = some nodeD :=
      Option.isSome_iff_exists.mp ((alookup_isSome_iff_mem _ _).mpr hdk)
    have hdm : dep ∈ g.model.map Prod.fst := by
      rw [hmodelEq]
      exact List.mem_map.mpr ⟨(dep, nodeD.dist), hinv.distProv dep nodeD hnodeD, rfl⟩
    obtain ⟨nodeR, hra, hrb, _⟩ := Q2 dep hdm
    exact ⟨nodeR, hra, hchat (dep, nodeR.dist) (hmodelEq ▸ hrb) hdn⟩
  obtain ⟨v, k2, c2, cur2, hdraw⟩ := drawOne_tm name (fuseDist node.dist) k c orc g.cur
  have hcov2 : ∀ p ∈ g.model,
      (alookup (upsert (traceData g.trace) name v) p.1).isSome := by
    intro p hp
    rw [alookup_isSome_iff_mem]
    exact mem_keys_upsert_of_mem _ _ _ _
      (by rw [keysOf_traceData]; exact hinv.covered p (hmodelEq ▸ hp))
  have hrct : runConditionTrace (upsert (traceData g.trace) name v)
      (stackTM k2 c2) g.model orc cur2 = some ([], stackTM k2 c2, cur2) := by
    rw [runConditionTrace,
      runProg_condition_covered g.model (upsert (traceData g.trace) name v)
        (.trace [] (stackTM k2 c2)) orc cur2 hcov2]
  refine ⟨v, k2, c2, cur2, ?_⟩
  rw [doWork, hnode]
  simp only [hkind, if_true, hrtc, hlc, hchain, hdraw, hrct, dictUpdate_nil]
  rfl

/-- The sequential scheduling loop runs its whole budget successfully under
the invariant, never changing the shared trace. -/
theorem gibbsLoop_ok (model : List (String × Dist)) (data : List (String × String))
    (orc : Oracle)
    (hchat : ∀ p ∈ model, alookup data p.1 = none → p.2.kind = .chatGPT) :
    ∀ (fuel : Nat) (g : GState), LoopInv model data g →
    latentsOf data g.trace ≠ [] →
    ∃ g', gibbsLoop orc fuel g = .ok g' ∧ g'.trace = g.trace ∧ g'.data = g.data := by
  intro fuel
  induction fuel with
  | zero => intro g _ _; exact ⟨g, rfl, rfl, rfl⟩
  | succ fuel ih =>
    intro g hinv hlat
    obtain ⟨nm, s', hfw, hnm, hbl', hrk', hts', hcs'⟩ :=
      findWork_some g.sched (latentsOf data g.trace) hinv.blanketEq hlat
        hinv.tasksEmpty hinv.countsSub hinv.countsNodup
    have hinv1 : LoopInv model data { g with sched := s' } :=
      { modelEq := hinv.modelEq
        dataEq := hinv.dataEq
        covered := hinv.covered
        distProv := hinv.distProv
        obsVal := hinv.obsVal
        blanketEq := by
          show s'.blanket = _
          rw [hbl']
          exact hinv.blanketEq
        tasksEmpty := by
          show s'.tasks = []
          rw [hts']
          exact hinv.tasksEmpty
        countsSub := by
          intro nm' hm'
          show nm' ∈ latentsOf data g.trace
          rw [show ({ g with sched := s' } : GState).sched = s' from rfl, hcs',
            keysOf_upsert] at hm'
          by_cases hmem : nm ∈ keysOf g.sched.counts
          · rw [if_pos hmem] at hm'
            exact hinv.countsSub nm' hm'
          · rw [if_neg hmem] at hm'
            rcases List.mem_append.mp hm' with h1 | h1
            · exact hinv.countsSub nm' h1
            · rw [List.mem_singleton.mp h1]
              exact hnm
        countsNodup := by
          show (keysOf s'.counts).Nodup
          rw [hcs']
          exact keysOf_nodup_upsert _ _ _ hinv.countsNodup
        chainTM := hinv.chainTM }
    obtain ⟨v, k2, c2, cur2, hdw⟩ :=
      doWork_ok model data { g with sched := s' } nm orc hinv1 hchat hnm
    have hstep : gibbsLoop orc (fuel + 1) g =
        match (doWork { g with sched := s' } nm false orc).res with
        | .error e => .error e
        | .ok g' => gibbsLoop orc fuel g' := by
      rw [gibbsLoop, hfw]
    have hstep2 : gibbsLoop orc (fuel + 1) g =
        gibbsLoop orc fuel ⟨g.model, g.data, s', g.trace, stackTM k2 c2, cur2, some v⟩ := by
      rw [hstep, hdw]
    have hinv2 : LoopInv model data
        ⟨g.model, g.data, s', g.trace, stackTM k2 c2, cur2, some v⟩ :=
      { modelEq := hinv1.modelEq
        dataEq := hinv1.dataEq
        covered := hinv1.covered
        distProv := hinv1.distProv
        obsVal := hinv1.obsVal
        blanketEq := hinv1.blanketEq
        tasksEmpty := hinv1.tasksEmpty
        countsSub := hinv1.countsSub
        countsNodup := hinv1.countsNodup
        chainTM := ⟨k2, c2, rfl⟩ }
    obtain ⟨g', hrun, htr, hdt⟩ := ih _ hinv2 hlat
    exact ⟨g', hstep2.trans hrun, htr, hdt⟩

/-- `_init` succeeds whenever every observed key is a site the program
visits. -/
theorem gibbsInit_ok (model : List (String × Dist)) (data : List (String × String))
    (k : RandomKey) (c : List ((Dist × RandomKey) × String)) (orc : Oracle)
    (cur : Nat) (hdatasub : ∀ p ∈ data, p.1 ∈ model.map Prod.fst) :
    ∃ g, gibbsInit model data none (stackTM k c) orc cur = .ok g := by
  obtain ⟨vs, tns', k', c', cur', hrun, P1, P2, P3⟩ :=
    runProg_trace_condition_tm model data [] k c orc cur
  have hall : (data.all fun p => (alookup tns' p.1).isSome) = true := by
    rw [List.all_eq_true]
    intro p hp
    obtain ⟨node, ha, _, _⟩ := P2 p.1 (hdatasub p hp)
    rw [ha]
    rfl
  refine ⟨⟨model, data,
    ⟨completeBlanket (keysOf (tns'.filter fun p => (alookup data p.1).isNone)),
      rankOf (keysOf (tns'.filter fun p => (alookup data p.1).isNone)), [], []⟩,
    tns', stackTM k' c', cur', none⟩, ?_⟩
  rw [gibbsInit, runTraceCondition, hrun]
  show (if (data.all fun p => (alookup tns' p.1).isSome) = true then _ else _) = _
  rw [hall]
  rfl

/-- C5 (amended): for a program all of whose latent sites draw from
`ChatGPT` distributions, with either at least one latent site or a zero
budget (covering the `m = 0, n = 0` case), every observed key visited and no
duplicate observed keys, `Gibbs.sample(n)` terminates successfully (for
`m ≥ 1` this holds for every budget `n`, in particular all `n ≥ m`) and
returns a mapping whose key set is exactly the set of latent sites (every
observed key excluded; empty when `m = 0`). -/
theorem gibbs_sample_coverage (model : List (String × Dist))
    (data : List (String × String)) (mbArg : Option (List (String × List String)))
    (n : Nat) (orc : Oracle)
    (hchat : ∀ p ∈ model, alookup data p.1 = none → p.2.kind = .chatGPT)
    (hdatasub : ∀ p ∈ data, p.1 ∈ model.map Prod.fst)
    (hdnodup : (keysOf data).Nodup)
    (hm : (∃ p ∈ model, alookup data p.1 = none) ∨ n = 0) :
    ∃ g out, gibbsSampleRun model data mbArg n orc = .ok (g, out) ∧
      ∀ nm, nm ∈ keysOf out ↔ nm ∈ model.map Prod.fst ∧ alookup data nm = none := by
  obtain ⟨g0, hinit⟩ := gibbsInit_ok model data RandomKey.root [] orc 0 hdatasub
  have hinv0 : LoopInv model data g0 :=
    gibbsInit_inv model data RandomKey.root [] orc 0 g0 hinit
  obtain ⟨gf, hloop, htr, hdt⟩ : ∃ gf, gibbsLoop orc n g0 = .ok gf ∧
      gf.trace = g0.trace ∧ gf.data = g0.data := by
    rcases hm with hm | hn
    · have hlat0 : latentsOf data g0.trace ≠ [] := by
        obtain ⟨p, hp, hlat⟩ := hm
        have : p.1 ∈ latentsOf data g0.trace :=
          (mem_latentsOf data g0.trace p.1).mpr ⟨hinv0.covered p hp, hlat⟩
        exact List.ne_nil_of_mem this
      exact gibbsLoop_ok model data orc hchat n g0 hinv0 hlat0
    · subst hn
      exact ⟨g0, rfl, rfl, rfl⟩
  have hdata0 : g0.data = data := hinv0.dataEq
  have hguard : (gf.data.all fun p =>
      match alookup gf.trace p.1 with
      | some node => node.value = p.2
      | none => false) = true := by
    rw [List.all_eq_true]
    intro p hp
    rw [hdt, hdata0] at hp
    have hlook : alookup data p.1 = some p.2 :=
      alookup_of_mem_nodup data hdnodup (by cases p; exact hp)
    obtain ⟨node, hnv, hval⟩ := hinv0.obsVal p.1 p.2 hlook
    rw [htr, hnv]
    simp [hval]
  refine ⟨gf, (gf.trace.filter fun p => (alookup gf.data p.1).isNone).map
      (fun p => (p.1, p.2.value)), ?_, ?_⟩
  · have hinit' : gibbsInit model data (gibbsCtorBlanket mbArg) defaultChain orc 0 =
        .ok g0 := hinit
    have e1 : gibbsSampleRun model data mbArg n orc = (match gibbsLoop orc n g0 with
        | Except.error e => Except.error e
        | Except.ok g =>
          if (g.data.all fun p =>
              match alookup g.trace p.1 with
              | some node => node.value = p.2
              | none => false) = true then
            Except.ok (g, (g.trace.filter fun p => (alookup g.data p.1).isNone).map
              fun p => (p.1, p.2.value))
          else Except.error GErr.dataChanged) := by
      rw [gibbsSampleRun, hinit']
    have e2 : gibbsSampleRun model data mbArg n orc =
        (if (gf.data.all fun p =>
            match alookup gf.trace p.1 with
            | some node => node.value = p.2
            | none => false) = true then
          Except.ok (gf, (gf.trace.filter fun p => (alookup gf.data p.1).isNone).map
            fun p => (p.1, p.2.value))
        else Except.error GErr.dataChanged) := by
      rw [e1, hloop]
    rw [e2, hguard]
    rfl
  · intro nm
    have hkeys : keysOf ((gf.trace.filter fun p =>
        (alookup gf.data p.1).isNone).map fun p => (p.1, p.2.value)) =
        latentsOf data g0.trace := by
      rw [hdt, hdata0, htr]
      simp [keysOf, latentsOf, List.map_map]
    rw [hkeys, mem_latentsOf]
    constructor
    · rintro ⟨hmem, hnone⟩
      obtain ⟨node, hnode⟩ : ∃ node, alookup g0.trace nm = some node :=
        Option.isSome_iff_exists.mp ((alookup_isSome_iff_mem _ _).mpr hmem)
      exact ⟨List.mem_map.mpr ⟨(nm, node.dist), hinv0.distProv nm node hnode, rfl⟩,
        hnone⟩
    · rintro ⟨hmem, hnone⟩
      obtain ⟨p, hp, hfst⟩ := List.mem_map.mp hmem
      exact ⟨hfst ▸ hinv0.covered p hp, hnone⟩

/-- C5 counterexample: a model whose single site is observed has `m = 0`
latent sites, and `n = 1 ≥ m`; yet `sample(1)` cannot spend its budget --
no site is ever feasible -- so the trailing `assert self.num_pending == 0`
fails (modelled as `budgetStuck`) instead of returning the empty latent
mapping the claim promises. -/
theorem gibbs_sample_m0_counterexample :
    gibbsSampleRun [("a", chatA)] [("a", "X")] none 1 orcW =
      .error .budgetStuck ∧ (1 : Nat) ≥ 0 :=
  ⟨rfl, by simp⟩

/-- Witness for `gibbs_sample_coverage`, both branches: the spec's concrete
two-site scenario observing `b = "X"` with `num_steps = 5` (so `m = 1`), and
the fully observed single-site model with `num_steps = 0` (the `m = 0`,
`n = 0` branch, returning the empty latent mapping). -/
theorem gibbs_sample_coverage_witness :
    (∃ g out, gibbsSampleRun progAB [("b", "X")] none 5 orcW = .ok (g, out) ∧
      ∀ nm, nm ∈ keysOf out ↔
        nm ∈ progAB.map Prod.fst ∧ alookup [("b", "X")] nm = none) ∧
    (∃ g out, gibbsSampleRun [("a", chatA)] [("a", "X")] none 0 orcW =
        .ok (g, out) ∧
      ∀ nm, nm ∈ keysOf out ↔
        nm ∈ [("a", chatA)].map Prod.fst ∧ alookup [("a", "X")] nm = none) :=
  ⟨gibbs_sample_coverage progAB [("b", "X")] none 5 orcW (by decide) (by decide)
    (by decide) (Or.inl ⟨("a", chatA), by decide, rfl⟩),
   gibbs_sample_coverage [("a", chatA)] [("a", "X")] none 0 orcW
    (by decide) (by decide)
    (by decide) (Or.inr rfl)⟩

/-- A `_do_work` body that returns successfully leaves the observed data,
the model, the scheduling state and (because the merge re-run records
nothing when the shared trace covers the program) the shared trace
unchanged. -/
theorem doWork_res_ok_facts (g : GState) (name : String) (df : Bool)
    (orc : Oracle) (g' : GState) (h : (doWork g name df orc).res = .ok g')
    (hcov : ∀ p ∈ g.model, p.1 ∈ keysOf g.trace) :
    g'.data = g.data ∧ g'.model = g.model ∧ g'.sched = g.sched ∧
      g'.trace = g.trace := by
  unfold doWork at h
  repeat' split at h
  all_goals try simp at h
  · -- drawFails = true: every arm of the remaining body is an error
    rename_i node hnode hkind hdf
    cases hX : runTraceCondition (upsert (traceData g.trace) name FusedVariable)
        g.chain g.model orc g.cur with
    | none => simp [hX] at h
    | some r =>
      obtain ⟨ns, chain1, cur1⟩ := r
      cases hY : likelihoodsCheck (depsOf g.sched name) name ns with
      | error e => simp [hX, hY] at h
      | ok u => simp [hX, hY] at h
  · -- drawFails = false: the only ok arm has an empty merge
    rename_i node hnode hkind hdf
    cases hX : runTraceCondition (upsert (traceData g.trace) name FusedVariable)
        g.chain g.model orc g.cur with
    | none => simp [hX] at h
    | some r =>
      obtain ⟨ns, chain1, cur1⟩ := r
      cases hY : likelihoodsCheck (depsOf g.sched name) name ns with
      | error e => simp [hX, hY] at h
      | ok u =>
        cases hZ : drawOne name (fuseDist node.dist) chain1 orc cur1 with
        | none => simp [hX, hY, hZ] at h
        | some r2 =>
          obtain ⟨v, chain2, cur2⟩ := r2
          have hcov2 : ∀ p ∈ g.model,
              (alookup (upsert (traceData g.trace) name v) p.1).isSome := by
            intro p hp
            rw [alookup_isSome_iff_mem]
            exact mem_keys_upsert_of_mem _ _ _ _
              (by rw [keysOf_traceData]; exact hcov p hp)
          have hrct : runConditionTrace (upsert (traceData g.trace) name v)
              chain2 g.model orc cur2 = some ([], chain2, cur2) := by
            rw [runConditionTrace,
              runProg_condition_covered g.model _ (.trace [] chain2) orc cur2 hcov2]
          simp only [hX, hY, hZ, hrct, Except.ok.injEq] at h
          rw [← h]
          exact ⟨rfl, rfl, rfl, dictUpdate_nil _⟩

/-- A successful scheduling loop preserves the observed data, the model and
the shared trace. -/
theorem gibbsLoop_ok_facts (orc : Oracle) : ∀ (fuel : Nat) (g g' : GState),
    gibbsLoop orc fuel g = .ok g' →
    (∀ p ∈ g.model, p.1 ∈ keysOf g.trace) →
    g'.data = g.data ∧ g'.model = g.model ∧ g'.trace = g.trace := by
  intro fuel
  induction fuel with
  | zero =>
    intro g g' h _
    rw [gibbsLoop, Except.ok.injEq] at h
    rw [h]
    exact ⟨rfl, rfl, rfl⟩
  | succ fuel ih =>
    intro g g' h hcov
    rw [gibbsLoop] at h
    split at h
    · simp at h
    · rename_i nm s' hfw
      split at h
      · simp at h
      · rename_i g1 hdw
        obtain ⟨h1, h2, h3, h4⟩ := doWork_res_ok_facts _ nm false orc g1 hdw hcov
        obtain ⟨i1, i2, i3⟩ := ih g1 g' h (by rw [h2, h4]; exact hcov)
        refine ⟨?_, ?_, ?_⟩
        · rw [i1, h1]
        · rw [i2, h2]
        · rw [i3, h4]

/-- C6: a draw whose name is present in a `Condition` interpreter's mapping
returns the mapped value without delegating: the chain below the Condition
-- including the Distribution-invoking `Standard` and any
RandomState-consuming `ThreadRandomKey` -- is returned untouched and the
oracle cursor does not advance.  And when `Gibbs.sample` returns
successfully, the final trace's entry for every observed name equals the
supplied observation. -/
theorem condition_shortcircuit_observed :
    (∀ (data : List (String × String)) (b : Interp) (name : String) (d : Dist)
      (rng : Option RandomKey) (orc : Oracle) (cur : Nat) (v : String),
      alookup data name = some v →
      Interp.sample (.condition data b) name d rng orc cur =
        some (v, .condition data b, cur)) ∧
    (∀ (model : List (String × Dist)) (data : List (String × String))
      (mbArg : Option (List (String × List String))) (n : Nat) (orc : Oracle)
      (g : GState) (out : List (String × String)),
      gibbsSampleRun model data mbArg n orc = .ok (g, out) →
      ∀ nm v, alookup data nm = some v →
      ∃ node, alookup g.trace nm = some node ∧ node.value = v) := by
  constructor
  · intro data b name d rng orc cur v hv
    exact sample_condition_hit data b name d rng orc cur v hv
  · intro model data mbArg n orc g out h nm v hv
    rw [gibbsSampleRun] at h
    cases hinit : gibbsInit model data (gibbsCtorBlanket mbArg) defaultChain orc 0 with
    | error e => simp only [hinit] at h; exact absurd h (by simp)
    | ok g0 =>
      simp only [hinit] at h
      cases hloop : gibbsLoop orc n g0 with
      | error e => simp only [hloop] at h; exact absurd h (by simp)
      | ok gf =>
        simp only [hloop] at h
        have hinv0 : LoopInv model data g0 :=
          gibbsInit_inv model data RandomKey.root [] orc 0 g0 hinit
        obtain ⟨hfd, hfm, hft⟩ := gibbsLoop_ok_facts orc n g0 gf hloop
          (by rw [hinv0.modelEq]; exact hinv0.covered)
        have hdata : gf.data = data := by rw [hfd, hinv0.dataEq]
        by_cases hg : (gf.data.all fun p =>
            match alookup gf.trace p.1 with
            | some node => node.value = p.2
            | none => false) = true
        · rw [if_pos hg] at h
          rw [Except.ok.injEq] at h
          have hgf : gf = g := (Prod.mk.injEq _ _ _ _ ▸ h).1
          have hmem : (nm, v) ∈ gf.data := by
            rw [hdata]
            exact alookup_mem data nm v hv
          have hpred := List.all_eq_true.mp hg (nm, v) hmem
          cases hlook : alookup gf.trace nm with
          | none =>
            rw [show ((nm, v) : String × String).1 = nm from rfl, hlook] at hpred
            simp at hpred
          | some node =>
            rw [show ((nm, v) : String × String).1 = nm from rfl, hlook] at hpred
            refine ⟨node, hgf ▸ hlook, ?_⟩
            exact of_decide_eq_true hpred
        · rw [if_neg hg] at h
          simp at h

/-- Witness for `condition_shortcircuit_observed`: the observed site `b` of
the two-site scenario. -/
theorem condition_shortcircuit_observed_witness :
    Interp.sample (.condition [("b", "X")] .standard) "b" chatB none orcW 0 =
      some ("X", .condition [("b", "X")] .standard, 0) ∧
    ∃ g out, gibbsSampleRun progAB [("b", "X")] none 1 orcW = .ok (g, out) ∧
      ∃ node, alookup g.trace "b" = some node ∧ node.value = "X" :=
  ⟨condition_shortcircuit_observed.1 [("b", "X")] .standard "b" chatB none
      orcW 0 "X" rfl,
   ⟨_, _, rfl,
    condition_shortcircuit_observed.2 progAB [("b", "X")] none 1 orcW _ _ rfl
      "b" "X" rfl⟩⟩

/-- C8 counterexample: an exception raised BEFORE the `try` block of
`_do_work` -- here the `assert isinstance(prior, ChatGPT)` on a
non-`ChatGPT` site -- is neither logged by the `except Exception` handler
nor does the `finally` remove the site from the in-flight map (both live
inside the later `try`); the claim's "the error is logged" and "that site is
removed from the in-flight set" fail, though the failure still propagates. -/
theorem doWork_pretry_counterexample :
    ∃ g0, gibbsInit [("a", otherDist)] [] none (stackTM RandomKey.root []) orcW 0 =
        .ok g0 ∧
      (doWork g0 "a" false orcW).res = .error .priorNotChat ∧
      (doWork g0 "a" false orcW).logged = false ∧
      (doWork g0 "a" false orcW).tasksAfter = ["a"] :=
  ⟨_, rfl, rfl, rfl, rfl⟩

/-- Every `_do_work` outcome is one of: an unlogged pre-`try` failure
leaving the site in flight, a logged in-`try` failure with the site removed,
or success with the site removed. -/
theorem doWork_cases (g : GState) (name : String) (df : Bool) (orc : Oracle) :
    (∃ e, doWork g name df orc = ⟨.error e, false, [name]⟩) ∨
    (∃ e, doWork g name df orc = ⟨.error e, true, []⟩) ∨
    (∃ g', doWork g name df orc = ⟨.ok g', false, []⟩) := by
  unfold doWork
  cases hN : alookup g.trace name with
  | none =>
    simp only [hN]
    left
    exact ⟨.traceKeyError, rfl⟩
  | some node =>
    simp only [hN]
    by_cases hK : node.dist.kind = .chatGPT
    · simp only [hK, if_true]
      cases hX : runTraceCondition (upsert (traceData g.trace) name FusedVariable)
          g.chain g.model orc g.cur with
      | none =>
        simp only [hX]
        left
        exact ⟨.missingRng, rfl⟩
      | some r =>
        obtain ⟨ns, chain1, cur1⟩ := r
        simp only [hX]
        cases hY : likelihoodsCheck (depsOf g.sched name) name ns with
        | error e =>
          simp only [hY]
          left
          exact ⟨e, rfl⟩
        | ok u =>
          simp only [hY]
          cases df with
          | true =>
            right; left
            exact ⟨.drawFailed, rfl⟩
          | false =>
            cases hZ : drawOne name (fuseDist node.dist) chain1 orc cur1 with
            | none =>
              simp only [hZ]
              right; left
              exact ⟨.missingRng, rfl⟩
            | some r2 =>
              obtain ⟨v, chain2, cur2⟩ := r2
              simp only [hZ]
              cases hW : runConditionTrace (upsert (traceData g.trace) name v)
                  chain2 g.model orc cur2 with
              | none =>
                simp only [hW]
                right; left
                exact ⟨.missingRng, rfl⟩
              | some r3 =>
                obtain ⟨sub, chain3, cur3⟩ := r3
                simp only [hW]
                right; right
                exact ⟨_, rfl⟩
    · simp only [if_neg hK]
      left
      exact ⟨.priorNotChat, rfl⟩

/-- C8 (amended): an exception raised INSIDE `_do_work`'s `try` block is
logged and the `finally` removes the site from the in-flight map, and the
failure propagates; an exception raised before the `try` (trace lookup, the
`isinstance` assertion, `get_likelihoods`) propagates unlogged with the site
still in the in-flight map.  In both cases the whole `sample` call fails
with that error, and when `sample` does return, the mapping covers exactly
the latent keys of the final trace -- never a partial result. -/
theorem doWork_failure_amended :
    (∀ (g : GState) (name : String) (df : Bool) (orc : Oracle),
      (doWork g name df orc).logged = true →
      (doWork g name df orc).tasksAfter = [] ∧
        ∃ e, (doWork g name df orc).res = .error e) ∧
    (∀ (g : GState) (name : String) (df : Bool) (orc : Oracle) (e : GErr),
      (doWork g name df orc).logged = false →
      (doWork g name df orc).res = .error e →
      (doWork g name df orc).tasksAfter = [name]) ∧
    (∀ (model : List (String × Dist)) (data : List (String × String))
      (mbArg : Option (List (String × List String))) (n : Nat) (orc : Oracle)
      (g0 : GState) (e : GErr),
      gibbsInit model data (gibbsCtorBlanket mbArg) defaultChain orc 0 = .ok g0 →
      gibbsLoop orc n g0 = .error e →
      gibbsSampleRun model data mbArg n orc = .error e) ∧
    (∀ (model : List (String × Dist)) (data : List (String × String))
      (mbArg : Option (List (String × List String))) (n : Nat) (orc : Oracle)
      (g : GState) (out : List (String × String)),
      gibbsSampleRun model data mbArg n orc = .ok (g, out) →
      ∀ nm, nm ∈ keysOf out ↔ nm ∈ keysOf g.trace ∧ alookup g.data nm = none) := by
  refine ⟨?_, ?_, ?_, ?_⟩
  · intro g name df orc hlog
    rcases doWork_cases g name df orc with ⟨e, heq⟩ | ⟨e, heq⟩ | ⟨g', heq⟩
    · rw [heq] at hlog
      exact absurd hlog (by simp)
    · rw [heq]
      exact ⟨rfl, e, rfl⟩
    · rw [heq] at hlog
      exact absurd hlog (by simp)
  · intro g name df orc e hlog hres
    rcases doWork_cases g name df orc with ⟨e', heq⟩ | ⟨e', heq⟩ | ⟨g', heq⟩
    · rw [heq]
    · rw [heq] at hlog
      exact absurd hlog (by simp)
    · rw [heq] at hres
      exact absurd hres (by simp)
  · intro model data mbArg n orc g0 e hinit hloop
    rw [gibbsSampleRun]
    simp only [hinit, hloop]
  · intro model data mbArg n orc g out h nm
    rw [gibbsSampleRun] at h
    cases hinit : gibbsInit model data (gibbsCtorBlanket mbArg) defaultChain orc 0 with
    | error e => simp only [hinit] at h; exact absurd h (by simp)
    | ok g0 =>
      simp only [hinit] at h
      cases hloop : gibbsLoop orc n g0 with
      | error e => simp only [hloop] at h; exact absurd h (by simp)
      | ok gf =>
        simp only [hloop] at h
        by_cases hg : (gf.data.all fun p =>
            match alookup gf.trace p.1 with
            | some node => node.value = p.2
            | none => false) = true
        · rw [if_pos hg] at h
          rw [Except.ok.injEq] at h
          have hgf : gf = g := (Prod.mk.injEq _ _ _ _ ▸ h).1
          have hout : ((gf.trace.filter fun p =>
              (alookup gf.data p.1).isNone).map fun p => (p.1, p.2.value)) = out :=
            (Prod.mk.injEq _ _ _ _ ▸ h).2
          rw [← hout, ← hgf]
          have : keysOf ((gf.trace.filter fun p =>
              (alookup gf.data p.1).isNone).map fun p => (p.1, p.2.value)) =
              latentsOf gf.data gf.trace := by
            simp [keysOf, latentsOf, List.map_map]
          rw [this]
          exact mem_latentsOf gf.data gf.trace nm
        · rw [if_neg hg] at h
          exact absurd h (by simp)

/-- Witness for `doWork_failure_amended`: an injected distribution failure
inside the `try` (logged, site removed), the unlogged pre-`try` assertion
failure, the zero-latent run whose loop error surfaces from `sample`, and a
successful run returning exactly the latent keys. -/
theorem doWork_failure_amended_witness :
    ∃ g0 g1, gibbsInit progAB [("b", "X")] none (stackTM RandomKey.root []) orcW 0 =
        .ok g0 ∧
      gibbsInit [("a", otherDist)] [] none (stackTM RandomKey.root []) orcW 0 =
        .ok g1 ∧
      (doWork g0 "a" true orcW).logged = true ∧
      (doWork g0 "a" true orcW).tasksAfter = [] ∧
      (∃ e, (doWork g0 "a" true orcW).res = .error e) ∧
      (doWork g1 "a" false orcW).tasksAfter = ["a"] ∧
      gibbsSampleRun [("a", chatA)] [("a", "X")] none 1 orcW =
        .error .budgetStuck ∧
      (∃ g out, gibbsSampleRun progAB [("b", "X")] none 1 orcW = .ok (g, out) ∧
        ∀ nm, nm ∈ keysOf out ↔ nm ∈ keysOf g.trace ∧ alookup g.data nm = none) := by
  refine ⟨_, _, rfl, rfl, rfl, rfl, ?_, ?_, ?_, ?_⟩
  · exact (doWork_failure_amended.1 _ "a" true orcW (by rfl)).2
  · exact doWork_failure_amended.2.1 _ "a" false orcW .priorNotChat (by rfl) (by rfl)
  · exact doWork_failure_amended.2.2.1 [("a", chatA)] [("a", "X")] none 1 orcW
      _ .budgetStuck (by rfl) (by rfl)
  · exact ⟨_, _, rfl, doWork_failure_amended.2.2.2 progAB [("b", "X")] none 1
      orcW _ _ (by rfl)⟩

end Lyro

